import Mathlib

/-!
# webpipr: token rendezvous between a sink and a source request

A shallow embedding of `main.go`.  Go strings are modelled as lists of
characters (`Str`); every separator the program looks for (`/`, `.`, `%`)
is ASCII, so positions in the list behave like the byte offsets of the Go
code on valid UTF-8 text.  A run-time panic (slice bounds, index out of
range) is modelled by `none`.

The two handlers run as goroutines, one per request.  They are modelled as a
transition system (`step`): a handler run is a record with its place in the
code, and a step is one statement (or block of statements) of one run, or a
channel communication between two runs.  Accesses to the registry
`sourceSinkMap` are taken as atomic, `time.After` may fire at any moment,
and the calls to `log.Printf` and `fmt.Println` are left out.  The library
calls (`net/http`, `encoding/json`, `fmt`, `io`) are modelled by what they
write.
-/

namespace Webpipr

/-- Go `string`, as the list of its characters. -/
abbrev Str := List Char

/-! ## `strings` helpers used by `getTokenExt` -/

/-- `strings.LastIndex(s, string(c))` for a one-character separator:
the offset of the last occurrence of `c`, `none` for Go's `-1`. -/
def lastIndex : Str → Char → Option Nat
  | [], _ => none
  | x :: xs, c =>
    match lastIndex xs c with
    | some i => some (i + 1)
    | none => if x = c then some 0 else none

/-- `strings.TrimSuffix(s, suffix)`: `s` without the trailing `suffix`,
or `s` itself when it does not end in `suffix`. -/
def trimSuffix (s suffix : Str) : Str :=
  if suffix.isSuffixOf s then s.take (s.length - suffix.length) else s

/-- `strings.TrimPrefix(s, pre)`: `s` without the leading `pre`, or `s`
itself when it does not start with `pre`. -/
def trimPrefix (s pre : Str) : Str :=
  if pre.isPrefixOf s then s.drop pre.length else s

/-- `strings.Trim(s, cutset)`: `s` with all leading and trailing characters
contained in `cutset` removed. -/
def trim (s cutset : Str) : Str :=
  ((s.dropWhile (fun c => decide (c ∈ cutset))).reverse.dropWhile
    (fun c => decide (c ∈ cutset))).reverse

/-- `getTokenExt` (main.go 44-64): parses out token and file extension.
`none` is the panic of the slice expression `tokenAndExt[-1:]` when the
trimmed path holds no `/`. -/
def getTokenExt (url : Str) : Option (Str × Str) :=
  let tokenAndExt := trimSuffix url ['/']
  match lastIndex tokenAndExt '/' with
  | none => none
  | some i =>
    let tokenAndExt := tokenAndExt.drop i
    let tokenAndExt := trimPrefix tokenAndExt ['/']
    let extSep := lastIndex tokenAndExt '.'
    let token := tokenAndExt
    let ext := ".txt".toList
    let (token, ext) :=
      match extSep with
      | some extSep => (tokenAndExt.take extSep, tokenAndExt.drop extSep)
      | none => (token, ext)
    let ext := '.' :: trim ext ['.']
    some (token, ext)

/-! ## Go maps -/

/-- Go `map[string]α`, kept as an association list.  `set` removes the old
entry of a key before adding the new one, so a map built with `set` holds
each key once; the order of the entries is not an observable of the Go map
(iteration takes its order from the run, see `rangeOver`). -/
structure GoMap (α : Type) where
  entries : List (Str × α)
  deriving DecidableEq, Repr

namespace GoMap

/-- `make(map[string]α)`. -/
def empty {α : Type} : GoMap α := ⟨[]⟩

/-- Lookup in an association list. -/
def find {α : Type} : List (Str × α) → Str → Option α
  | [], _ => none
  | (k, v) :: rest, key => if k = key then some v else find rest key

/-- `v, ok := m[key]`. -/
def get {α : Type} (m : GoMap α) (key : Str) : Option α := find m.entries key

/-- An association list without the entries of `key`. -/
def remove {α : Type} : List (Str × α) → Str → List (Str × α)
  | [], _ => []
  | (k, v) :: rest, key => if k = key then remove rest key else (k, v) :: remove rest key

/-- `delete(m, key)`. -/
def delete {α : Type} (m : GoMap α) (key : Str) : GoMap α := ⟨remove m.entries key⟩

/-- `m[key] = v`. -/
def set {α : Type} (m : GoMap α) (key : Str) (v : α) : GoMap α :=
  ⟨(key, v) :: (m.delete key).entries⟩

/-- The keys of the map. -/
def keys {α : Type} (m : GoMap α) : List Str := m.entries.map Prod.fst

end GoMap

/-- `for k, v := range m`: Go visits the entries in an order of its own
choosing.  `order` is the order of one run, a permutation of the keys. -/
def rangeOver {α : Type} (order : List Str) (m : GoMap α) : List (Str × α) :=
  order.filterMap (fun k => (m.get k).map (fun v => (k, v)))

/-! ## Library behaviour the handlers rely on -/

/-- The character `"`. -/
def quote : Char := Char.ofNat 34

/-- The character `\`. -/
def backslash : Char := Char.ofNat 92

/-- The table `hex` of `encoding/json`. -/
def hexDigit (n : Nat) : Char := "0123456789abcdef".toList.getD n '0'

/-- One character of a JSON string as `encoding/json` writes it with HTML
escaping on (what `Marshal` and `MarshalIndent` use): `"` and `\` get a
backslash, the control characters their short or `\u00XX` form, and `<`,
`>`, `&`, U+2028, U+2029 their `\uXXXX` form. -/
def jsonEscapeChar (c : Char) : Str :=
  let n := c.toNat
  if c = quote ∨ c = backslash then [backslash, c]
  else if n = 8 then [backslash, 'b']
  else if n = 12 then [backslash, 'f']
  else if n = 10 then [backslash, 'n']
  else if n = 13 then [backslash, 'r']
  else if n = 9 then [backslash, 't']
  else if n < 32 ∨ n = 60 ∨ n = 62 ∨ n = 38 then
    [backslash, 'u', '0', '0', hexDigit (n / 16), hexDigit (n % 16)]
  else if n = 8232 then backslash :: "u2028".toList
  else if n = 8233 then backslash :: "u2029".toList
  else [c]

/-- A Go string as a JSON string literal. -/
def jsonString (s : Str) : Str :=
  quote :: (s.flatMap jsonEscapeChar ++ [quote])

/-- Lexicographic order on strings by character code (Go's `<` on
strings), used by `encoding/json` to sort map keys. -/
def strLe : Str → Str → Bool
  | [], _ => true
  | _ :: _, [] => false
  | a :: as, b :: bs =>
    if a.toNat < b.toNat then true
    else if b.toNat < a.toNat then false
    else strLe as bs

/-- Insertion into a list sorted by `strLe`. -/
def insertKey (k : Str) : List Str → List Str
  | [] => [k]
  | x :: xs => if strLe k x then k :: x :: xs else x :: insertKey k xs

/-- The keys in sorted order. -/
def sortKeys : List Str → List Str
  | [] => []
  | k :: ks => insertKey k (sortKeys ks)

/-- Joins lines with a separator. -/
def joinWith (sep : Str) : List Str → Str
  | [] => []
  | [x] => x
  | x :: y :: rest => x ++ sep ++ joinWith sep (y :: rest)

/-- `json.MarshalIndent(params, "", "    ")` for a `map[string]string`:
`{}` for the empty map, otherwise one `"key": "value"` member per line,
keys sorted, each line indented by four spaces.  For this type the call
returns no error. -/
def jsonMarshalIndent (params : GoMap Str) : Str :=
  let members := (sortKeys params.keys).map (fun k =>
    "    ".toList ++ jsonString k ++ ": ".toList ++ jsonString ((params.get k).getD []))
  match members with
  | [] => "\x7b\x7d".toList
  | _ => "\x7b\n".toList ++ joinWith ",\n".toList members ++ "\n\x7d".toList

/-- `parsenum` of package `fmt` on the text that is left: the number read,
whether one was read, and the text after it.  A number above 1e6 makes Go
give up and jump to the end of the format (`tooLarge`). -/
def parsenum : Str → Nat → Bool → Nat × Bool × Str
  | [], num, isnum => (num, isnum, [])
  | c :: cs, num, isnum =>
    if '0' ≤ c ∧ c ≤ '9' then
      if num > 1000000 then (0, false, [])
      else parsenum cs (num * 10 + (c.toNat - '0'.toNat)) true
    else (num, isnum, c :: cs)

/-- `parseArgNumber` of package `fmt`: `format` starts with `[`; returns the
number of characters to consume and whether a bracketed number was read. -/
def parseArgNumber (format : Str) : Nat × Bool :=
  if format.length < 3 then (1, false)
  else
    let inner := (format.drop 1).takeWhile (fun c => c ≠ ']')
    if inner.length + 1 < format.length then
      let (_, ok, rest) := parsenum inner 0 false
      if !ok || rest ≠ [] then (inner.length + 2, false) else (inner.length + 2, true)
    else (1, false)

/-- `argNumber` of package `fmt` when the call has no operands: the text
after an optional `[n]`, whether an index was read (`afterIndex`), and the
flag `goodArgNum` (no index is in range when there are no operands). -/
def argNumber (format : Str) (goodArgNum : Bool) : Str × Bool × Bool :=
  match format with
  | '[' :: _ =>
    let (wid, ok) := parseArgNumber format
    (format.drop wid, ok, false)
  | _ => (format, false, goodArgNum)

/-- The width part of a verb in `doPrintf`: `*` has no operand to take the
width from (`%!(BADWIDTH)`), otherwise an optional number is read.  Returns
the text left, the output, `afterIndex` and `goodArgNum`. -/
def widthStep (r : Str) (afterIndex good : Bool) : Str × Str × Bool × Bool :=
  match r with
  | '*' :: r1 => (r1, "%!(BADWIDTH)".toList, false, good)
  | _ =>
    let (_, widPresent, r1) := parsenum r 0 false
    (r1, [], afterIndex, good && !(afterIndex && widPresent))

/-- The precision part of a verb in `doPrintf`: after a `.`, an optional
`[n]`, then `*` (no operand: `%!(BADPREC)`) or an optional number. -/
def precStep (r : Str) (afterIndex good : Bool) : Str × Str × Bool × Bool :=
  match r with
  | '.' :: r1 =>
    let good := good && !afterIndex
    let (r2, afterIndex, good) := argNumber r1 good
    match r2 with
    | '*' :: r3 => (r3, "%!(BADPREC)".toList, false, good)
    | _ =>
      let (_, _, r3) := parsenum r2 0 false
      (r3, [], afterIndex, good)
  | _ => (r, [], afterIndex, good)

/-- One verb of `doPrintf` for a call without operands; `r` is the text
after the `%`.  Flags, `[n]`, width and precision are read, then the verb:
`%` prints `%`; any other verb has no operand to print, which Go reports in
the output (`%!v(MISSING)`, or `%!v(BADINDEX)` after a bad `[n]`); a format
that ends before the verb gives `%!(NOVERB)`.  Returns the output and the
text after the verb (`none` when the format has ended). -/
def verbStep (r : Str) : Str × Option Str :=
  let r := r.dropWhile (fun c => decide (c ∈ ['#', '0', '+', '-', ' ']))
  let (r, afterIndex, good) := argNumber r true
  let (r, out1, afterIndex, good) := widthStep r afterIndex good
  let (r, out2, afterIndex, good) := precStep r afterIndex good
  let (r, good) :=
    if afterIndex then (r, good)
    else
      let (r1, _, good) := argNumber r good
      (r1, good)
  match r with
  | [] => (out1 ++ out2 ++ "%!(NOVERB)".toList, none)
  | verb :: r1 =>
    let shown :=
      if verb = '%' then ['%']
      else if good then "%!".toList ++ [verb] ++ "(MISSING)".toList
      else "%!".toList ++ [verb] ++ "(BADINDEX)".toList
    (out1 ++ out2 ++ shown, some r1)

/-- The loop of `doPrintf` of package `fmt` for a call without operands, as
`fmt.Fprintf(w, format)` runs it: text up to a `%` is copied, then one verb
is processed, and so on to the end of the format.  Every round consumes the
`%` it stops at, so `format.length + 1` rounds of `fuel` process the whole
format (`doPrintf_fuel`). -/
def doPrintf : Nat → Str → Str
  | 0, _ => []
  | fuel + 1, format =>
    let lit := format.takeWhile (fun c => c ≠ '%')
    match format.dropWhile (fun c => c ≠ '%') with
    | [] => lit
    | _ :: r =>
      match verbStep r with
      | (out, none) => lit ++ out
      | (out, some r1) => lit ++ out ++ doPrintf fuel r1

/-- The bytes `fmt.Fprintf(w, format)` (no operands) writes to `w`. -/
def fprintf0 (format : Str) : Str := doPrintf (format.length + 1) format

/-- The bytes `fmt.Fprintln(w, fmt.Sprintf("%v=%v", k, v))` writes for two
strings: the key, `=`, the value and a newline, nothing escaped. -/
def fprintlnKeyValue (k v : Str) : Str := k ++ '=' :: v ++ ['\n']

/-! ## Requests, responses and the bridging done by `sinkHandler` -/

/-- A request body as the handler reads it: the bytes the stream yields
before it ends, and whether it ends with a read error instead of EOF
(the `err` that `io.Copy` returns and the handlers only log). -/
structure Reader where
  bytes : Str
  err : Bool
  deriving DecidableEq, Repr

/-- The parts of `*http.Request` the handlers use.  `Form` is the map that
`ParseForm` stores in `req.Form` (decoding query strings is the work of
`net/url` and is not modelled); `formEncoded` says that the request is a
POST, PUT or PATCH with content type `application/x-www-form-urlencoded`,
the case in which `ParseForm` reads the parameters from the body. -/
structure Request where
  Path : Str
  Method : Str
  Body : Reader
  formEncoded : Bool
  Form : GoMap (List Str)
  deriving DecidableEq, Repr

/-- What has been written to a `http.ResponseWriter`: the status given to
`WriteHeader` (`none` while no handler has set one), the header values
added, and the body bytes. -/
structure Response where
  status : Option Nat
  header : List (Str × Str)
  body : Str
  deriving DecidableEq, Repr

/-- A response nothing has been written to. -/
def Response.new : Response := ⟨none, [], []⟩

/-- `rw.Header().Add(key, value)`. -/
def Response.addHeader (rw : Response) (key value : Str) : Response :=
  { rw with header := rw.header ++ [(key, value)] }

/-- Body bytes written to the response. -/
def Response.write (rw : Response) (bytes : Str) : Response :=
  { rw with body := rw.body ++ bytes }

/-- `http.NotFound(rw, req)`: the headers of an error reply, status 404 and
the text `404 page not found`. -/
def httpNotFound (rw : Response) : Response :=
  { status := some 404
    header := rw.header ++ [("Content-Type".toList, "text/plain; charset=utf-8".toList),
      ("X-Content-Type-Options".toList, "nosniff".toList)]
    body := rw.body ++ "404 page not found\n".toList }

/-- `http.Redirect(rw, req, "/", http.StatusTemporaryRedirect)` on a
response without content type: the `Location` header, for GET and HEAD the
HTML content type, status 307 and, for a GET request, the short HTML note. -/
def httpRedirect (rw : Response) (req : Request) : Response :=
  { status := some 307
    header := rw.header ++ [("Location".toList, ['/'])] ++
      (if req.Method = "GET".toList ∨ req.Method = "HEAD".toList then
        [("Content-Type".toList, "text/html; charset=utf-8".toList)] else [])
    body := rw.body ++
      (if req.Method = "GET".toList then
        "<a href=\"/\">Temporary Redirect</a>.\n\n".toList else []) }

/-- `typeForExt` (main.go 66-72); `typeByExtension` stands for
`mime.TypeByExtension`, whose table belongs to the host system. -/
def typeForExt (typeByExtension : Str → Str) (ext : Str) : Str :=
  let t := typeByExtension ext
  if t = [] then "text/plain".toList else t

/-- The limit up to which `ParseForm` reads a form body (`10 << 20`). -/
def maxFormSize : Nat := 10 * 2 ^ 20

/-- The body that is left to read after `req.ParseForm()`: a form-encoded
body has been read by the parser (up to `maxFormSize + 1` bytes), any other
body is untouched. -/
def bodyAfterParseForm (req : Request) : Reader :=
  if req.formEncoded then
    { req.Body with bytes := req.Body.bytes.drop (maxFormSize + 1) }
  else req.Body

/-- The loop at main.go 125-127, `params[key] = values[0]` for every entry
of the form; `none` is the index-out-of-range panic on an empty value
list. -/
def firstValues : List (Str × List Str) → GoMap Str → Option (GoMap Str)
  | [], params => some params
  | (_, []) :: _, _ => none
  | (key, v :: _) :: rest, params => firstValues rest (params.set key v)

/-- The JSON parameter block (main.go 131-138): the indented JSON text of
`params` with a newline appended, handed to `fmt.Fprintf` as its format
string. -/
def jsonBlock (params : GoMap Str) : Str :=
  let reqParams := jsonMarshalIndent params
  fprintf0 (reqParams ++ ['\n'])

/-- The plain-text parameter block (main.go 141-143): one
`fmt.Fprintln(outRw, fmt.Sprintf("%v=%v", k, v))` per entry that
`range params` visits. -/
def plainBlock (order : List Str) (params : GoMap Str) : Str :=
  (rangeOver order params).flatMap (fun kv => fprintlnKeyValue kv.1 kv.2)

/-- What the bridging of one parcel wrote: to the source's response, to the
sink's own response, and whether it ended in a panic. -/
structure Bridged where
  toSource : Str
  toSink : Str
  panicked : Bool
  deriving DecidableEq, Repr

/-- The body of the receive branch of `sinkHandler` (main.go 116-146) for
the extension `ext`, the sink's request body `outBody` and the source's
request `sourceReq`; `order` is the order in which `range params` visits
the keys in this run (`none` when `order` is not an order of the keys).
`json.MarshalIndent` returns no error for a `map[string]string`, so the
logging branch at main.go 133-135 is never taken. -/
def sinkBridge (ext : Str) (outBody : Reader) (sourceReq : Request) (order : List Str) :
    Option Bridged :=
  -- io.Copy(sourceReq.rw, outReq.Body)
  let toSource := outBody.bytes
  -- sourceReq.req.ParseForm()
  let rest := bodyAfterParseForm sourceReq
  match firstValues sourceReq.Form.entries GoMap.empty with
  | none => some { toSource := toSource, toSink := [], panicked := true }
  | some params =>
    if ext = ".json".toList then
      some { toSource := toSource, toSink := jsonBlock params, panicked := false }
    else if order.Perm params.keys then
      -- the block, then io.Copy(outRw, sourceReq.req.Body)
      some { toSource := toSource, toSink := plainBlock order params ++ rest.bytes,
             panicked := false }
    else none

/-! ## The handlers as a transition system -/

/-- Identity of a channel created by `make(chan ...)`. -/
abbrev Chan := Nat

/-- `SourceRequest` (main.go 22-26), the parcel: `rw` names the source
handler whose response writer it is. -/
structure SourceRequest where
  rw : Nat
  req : Request
  done : Chan
  deriving DecidableEq, Repr

/-- Where a run of `sinkHandler` stands. -/
inductive SinkPC
  /-- Before main.go 95. -/
  | start
  /-- After `sourceSinkMap[token] = make(...)` (106), before the `select`. -/
  | registered (token ext : Str)
  /-- Blocked in the `select` (108-149) on the channel read from the map
  when the `select` was entered; `none` is the nil channel of a missing
  entry. -/
  | waiting (token ext : Str) (ch : Option Chan)
  /-- The timeout case (147) was taken. -/
  | timedOut (token ext : Str)
  /-- A parcel was received (109); the send on `done` is deferred (111). -/
  | received (token ext : Str) (sourceReq : SourceRequest)
  /-- After the bridging (114-146), before `delete` (151). -/
  | bridged (token ext : Str) (sourceReq : SourceRequest)
  /-- Running the deferred `sourceReq.done <- true`. -/
  | signalling (sourceReq : SourceRequest)
  /-- The handler has returned; `gotParcel` tells whether it had received
  a parcel. -/
  | returned (gotParcel : Bool)
  deriving DecidableEq, Repr

/-- How a run of `sourceHandler` ended. -/
inductive SourceEnd
  | notFound
  | done
  | timedOut
  | panicked
  deriving DecidableEq, Repr

/-- Where a run of `sourceHandler` stands. -/
inductive SourcePC
  /-- Before main.go 158. -/
  | start
  /-- Blocked in `sinkChan <- &srcReq` (173). -/
  | sending (token ext : Str) (sinkChan : Chan) (srcReq : SourceRequest)
  /-- Blocked in the `select` on `doneChan` (177-182). -/
  | awaiting (token ext : Str) (doneChan : Chan)
  /-- The handler has returned. -/
  | returned (how : SourceEnd)
  deriving DecidableEq, Repr

/-- One run of `sinkHandler`: its request, its response writer, its place
in the code, and the number of values it has sent on a `done` channel. -/
structure SinkThread where
  outReq : Request
  outRw : Response
  pc : SinkPC
  doneSent : Nat
  deriving DecidableEq, Repr

/-- One run of `sourceHandler`. -/
structure SourceThread where
  req : Request
  rw : Response
  pc : SourcePC
  deriving DecidableEq, Repr

/-- The process: the registry `sourceSinkMap` (main.go 29), the number of
channels made so far, and the handler runs started so far. -/
structure State where
  sourceSinkMap : GoMap Chan
  nextChan : Nat
  sinks : List SinkThread
  sources : List SourceThread
  deriving DecidableEq, Repr

/-- The process at start-up. -/
def State.init : State := ⟨GoMap.empty, 0, [], []⟩

/-- The steps of one run of `sinkHandler`. -/
inductive SinkStep
  /-- Lines 95-106: token extraction, redirect, registration. -/
  | register
  /-- Line 109: the channel operand `sourceSinkMap[token]` is evaluated. -/
  | select
  /-- Line 147: `time.After(timeout)` fires. -/
  | timeout
  /-- Lines 114-146, with the iteration order of `range params`. -/
  | bridge (order : List Str)
  /-- Line 151: `delete(sourceSinkMap, token)`. -/
  | unregister
  deriving DecidableEq, Repr

/-- The steps of one run of `sourceHandler` it takes on its own. -/
inductive SourceStep
  /-- Lines 158-172: token extraction, lookup, parcel or `http.NotFound`. -/
  | lookup
  /-- Line 180: `time.After(defaultTimeout)` fires. -/
  | timeout
  deriving DecidableEq, Repr

/-- Replaces the record of sink run `i`. -/
def State.setSink (s : State) (i : Nat) (th : SinkThread) : State :=
  { s with sinks := s.sinks.set i th }

/-- Replaces the record of source run `j`. -/
def State.setSource (s : State) (j : Nat) (th : SourceThread) : State :=
  { s with sources := s.sources.set j th }

/-- Body bytes written to the response writer of source run `j`. -/
def State.writeSource (s : State) (j : Nat) (bytes : Str) : State :=
  match s.sources[j]? with
  | some src => s.setSource j { src with rw := src.rw.write bytes }
  | none => s

/-- `sinkHandler` (main.go 88-154), one step of run `i`.  `none`: the step
is not the one the run is at. -/
def sinkHandler (typeByExtension : Str → Str) (s : State) (i : Nat) (a : SinkStep) :
    Option State :=
  match s.sinks[i]? with
  | none => none
  | some th =>
    match th.pc, a with
    | SinkPC.start, SinkStep.register =>
      match getTokenExt th.outReq.Path with
      | none =>
        -- the panic is recovered by the deferred function (89-93)
        some (s.setSink i { th with pc := SinkPC.returned false })
      | some (token, ext) =>
        -- No token found... Get a new URL (no return follows the redirect)
        let outRw := if token = [] then httpRedirect th.outRw th.outReq else th.outRw
        -- Make a channel for the source request to send to
        let s1 : State :=
          { s with sourceSinkMap := s.sourceSinkMap.set token s.nextChan
                   nextChan := s.nextChan + 1 }
        some (s1.setSink i { th with outRw := outRw, pc := SinkPC.registered token ext })
    | SinkPC.registered token ext, SinkStep.select =>
      some (s.setSink i { th with pc := SinkPC.waiting token ext (s.sourceSinkMap.get token) })
    | SinkPC.waiting token ext _, SinkStep.timeout =>
      some (s.setSink i { th with pc := SinkPC.timedOut token ext })
    | SinkPC.received token ext sourceReq, SinkStep.bridge order =>
      -- Set header based on extension
      let outRw := th.outRw.addHeader "Content-Type".toList (typeForExt typeByExtension ext)
      match sinkBridge ext th.outReq.Body sourceReq.req order with
      | none => none
      | some b =>
        let s1 := s.writeSource sourceReq.rw b.toSource
        some (s1.setSink i
          { th with outRw := outRw.write b.toSink
                    pc := if b.panicked then SinkPC.signalling sourceReq
                          else SinkPC.bridged token ext sourceReq })
    | SinkPC.timedOut token _, SinkStep.unregister =>
      let s1 : State := { s with sourceSinkMap := s.sourceSinkMap.delete token }
      some (s1.setSink i { th with pc := SinkPC.returned false })
    | SinkPC.bridged token _ sourceReq, SinkStep.unregister =>
      let s1 : State := { s with sourceSinkMap := s.sourceSinkMap.delete token }
      some (s1.setSink i { th with pc := SinkPC.signalling sourceReq })
    | _, _ => none

/-- `sourceHandler` (main.go 157-189), one step of run `j` it takes on its
own. -/
def sourceHandler (typeByExtension : Str → Str) (s : State) (j : Nat) (a : SourceStep) :
    Option State :=
  match s.sources[j]? with
  | none => none
  | some th =>
    match th.pc, a with
    | SourcePC.start, SourceStep.lookup =>
      match getTokenExt th.req.Path with
      | none => some (s.setSource j { th with pc := SourcePC.returned SourceEnd.panicked })
      | some (token, ext) =>
        -- Find sync registered for this token
        match s.sourceSinkMap.get token with
        | some sinkChan =>
          let rw := th.rw.addHeader "Content-Type".toList (typeForExt typeByExtension ext)
          let doneChan := s.nextChan
          let srcReq : SourceRequest := ⟨j, th.req, doneChan⟩
          let s1 : State := { s with nextChan := s.nextChan + 1 }
          some (s1.setSource j
            { th with rw := rw, pc := SourcePC.sending token ext sinkChan srcReq })
        | none =>
          some (s.setSource j
            { th with rw := httpNotFound th.rw, pc := SourcePC.returned SourceEnd.notFound })
    | SourcePC.awaiting _ _ _, SourceStep.timeout =>
      some (s.setSource j { th with pc := SourcePC.returned SourceEnd.timedOut })
    | _, _ => none

/-- The send `sinkChan <- &srcReq` of source run `j` (173) meeting the
receive of sink run `i` (109) on the same channel. -/
def handoff (s : State) (j i : Nat) : Option State :=
  match s.sources[j]?, s.sinks[i]? with
  | some src, some snk =>
    match src.pc, snk.pc with
    | SourcePC.sending token ext sinkChan srcReq, SinkPC.waiting tk ex (some ch) =>
      if sinkChan = ch then
        some ((s.setSource j { src with pc := SourcePC.awaiting token ext srcReq.done }).setSink i
          { snk with pc := SinkPC.received tk ex srcReq })
      else none
    | _, _ => none
  | _, _ => none

/-- The deferred send `sourceReq.done <- true` of sink run `i` (111)
meeting the receive `<-doneChan` of source run `j` (178). -/
def signal (s : State) (i j : Nat) : Option State :=
  match s.sinks[i]?, s.sources[j]? with
  | some snk, some src =>
    match snk.pc, src.pc with
    | SinkPC.signalling sourceReq, SourcePC.awaiting _ _ doneChan =>
      if sourceReq.done = doneChan then
        some ((s.setSink i
          { snk with pc := SinkPC.returned true, doneSent := snk.doneSent + 1 }).setSource j
          { src with pc := SourcePC.returned SourceEnd.done })
      else none
    | _, _ => none
  | _, _ => none

/-- What can happen next in the process. -/
inductive Label
  /-- A request for `/out/...` arrives and a run of `sinkHandler` starts. -/
  | sinkArrives (req : Request)
  /-- A request for `/in/...` arrives and a run of `sourceHandler` starts. -/
  | sourceArrives (req : Request)
  | sink (i : Nat) (a : SinkStep)
  | source (j : Nat) (a : SourceStep)
  | handoff (j i : Nat)
  | signal (i j : Nat)
  deriving DecidableEq, Repr

/-- One step of the process; timeouts may fire at any moment. -/
def step (typeByExtension : Str → Str) (s : State) : Label → Option State
  | Label.sinkArrives req =>
    some { s with sinks := s.sinks ++ [⟨req, Response.new, SinkPC.start, 0⟩] }
  | Label.sourceArrives req =>
    some { s with sources := s.sources ++ [⟨req, Response.new, SourcePC.start⟩] }
  | Label.sink i a => sinkHandler typeByExtension s i a
  | Label.source j a => sourceHandler typeByExtension s j a
  | Label.handoff j i => handoff s j i
  | Label.signal i j => signal s i j

/-- A sequence of steps. -/
def run (typeByExtension : Str → Str) : State → List Label → Option State
  | s, [] => some s
  | s, l :: ls =>
    match step typeByExtension s l with
    | some s1 => run typeByExtension s1 ls
    | none => none

/-- The states the process can reach from start-up. -/
inductive Reachable (typeByExtension : Str → Str) : State → Prop
  | init : Reachable typeByExtension State.init
  | step {s s1 : State} (l : Label) :
      Reachable typeByExtension s → step typeByExtension s l = some s1 →
      Reachable typeByExtension s1

/-- A request with the given path, method and body, and no form
parameters. -/
def Request.plain (path method body : Str) : Request :=
  ⟨path, method, ⟨body, false⟩, false, GoMap.empty⟩

/-- A source that now asks for `token` is answered with `http.NotFound`:
the registry has no entry for `token`, and every run of `sourceHandler`
about to look `token` up returns with status 404. -/
def SourceGetsNotFound (typeByExtension : Str → Str) (s : State) (token : Str) : Prop :=
  s.sourceSinkMap.get token = none ∧
  ∀ (j : Nat) (src : SourceThread) (ext : Str),
    s.sources[j]? = some src → src.pc = SourcePC.start →
    getTokenExt src.req.Path = some (token, ext) →
    ∃ s1, step typeByExtension s (Label.source j SourceStep.lookup) = some s1 ∧
      (s1.sources[j]?).map (fun t => (t.rw.status, t.pc)) =
        some (some 404, SourcePC.returned SourceEnd.notFound)

/-! ## Example states -/

/-- A sink run for token `t` that has just received the parcel of source
run 0, whose request body is `hello`. -/
def exampleSink : SinkThread :=
  ⟨Request.plain "/out/t".toList "GET".toList "from sink".toList, Response.new,
    SinkPC.received "t".toList ".txt".toList
      ⟨0, Request.plain "/in/t".toList "PUT".toList "hello".toList, 1⟩, 0⟩

/-- The process with the sink run `exampleSink` and the source run it
received the parcel from. -/
def exampleReceived : State :=
  ⟨⟨[("t".toList, 0)]⟩, 2, [exampleSink],
    [⟨Request.plain "/in/t".toList "PUT".toList "hello".toList,
      ⟨none, [("Content-Type".toList, "text/plain".toList)], []⟩,
      SourcePC.awaiting "t".toList ".txt".toList 1⟩]⟩

/-! ## Invariants of the process -/

/-- The count of `done` sends of every sink run: one for a run that returned
after a parcel, none for a run anywhere else in the code. -/
def DoneInv (s : State) : Prop :=
  ∀ (i : Nat) (th : SinkThread), s.sinks[i]? = some th →
    (th.pc = SinkPC.returned true → th.doneSent = 1) ∧
    (th.pc ≠ SinkPC.returned true → th.doneSent = 0)

/-- Channels and tokens: every registered channel has been made, no channel
is registered for two tokens, and a channel a sink waits on is registered
for no token but the sink's own. -/
def ChanInv (s : State) : Prop :=
  (∀ (T : Str) (c : Chan), s.sourceSinkMap.get T = some c → c < s.nextChan) ∧
  (∀ (T1 T2 : Str) (c : Chan),
    s.sourceSinkMap.get T1 = some c → s.sourceSinkMap.get T2 = some c → T1 = T2) ∧
  (∀ (i : Nat) (th : SinkThread) (tk ex : Str) (c : Chan),
    s.sinks[i]? = some th → th.pc = SinkPC.waiting tk ex (some c) →
    c < s.nextChan ∧ ∀ T, s.sourceSinkMap.get T = some c → T = tk)

/-- A source run that does not, and will not, receive on the channel
`done`: it is not waiting on it and is not about to hand it over. -/
def SourceOff (done : Chan) (src : SourceThread) : Prop :=
  (∀ t e, src.pc ≠ SourcePC.awaiting t e done) ∧
  (∀ t e c r, src.pc = SourcePC.sending t e c r → r.done ≠ done)

/-- Sink run `i` is blocked in the deferred send on `sourceReq.done`, has
sent nothing, and no source run is left to receive on that channel. -/
def DoneBlocked (i : Nat) (sourceReq : SourceRequest) (s : State) : Prop :=
  (∃ th : SinkThread, s.sinks[i]? = some th ∧ th.pc = SinkPC.signalling sourceReq ∧
    th.doneSent = 0) ∧
  sourceReq.done < s.nextChan ∧
  ∀ (j : Nat) (src : SourceThread), s.sources[j]? = some src → SourceOff sourceReq.done src

/-- The state after: a sink registers `t` and waits, a source hands its
parcel over, the source's wait for `done` times out while the sink is still
bridging, and the sink finishes bridging and unregisters. -/
def blockedState : State :=
  ⟨GoMap.empty, 2,
    [⟨Request.plain "/out/t".toList "POST".toList "a long body".toList,
      ⟨none, [("Content-Type".toList, "text/plain".toList)], []⟩,
      SinkPC.signalling ⟨0, Request.plain "/in/t".toList "GET".toList [], 1⟩, 0⟩],
    [⟨Request.plain "/in/t".toList "GET".toList [],
      ⟨none, [("Content-Type".toList, "text/plain".toList)], "a long body".toList⟩,
      SourcePC.returned SourceEnd.timedOut⟩]⟩

/-- The state after a first sink for `t` has registered, timed out and
unregistered, a second sink for `t` has registered and waits, and a source
for `t` has arrived. -/
def exampleWaiting : State :=
  ⟨⟨[("t".toList, 1)]⟩, 2,
    [⟨Request.plain "/out/t".toList "GET".toList [], Response.new, SinkPC.returned false, 0⟩,
     ⟨Request.plain "/out/t".toList "GET".toList [], Response.new,
      SinkPC.waiting "t".toList ".txt".toList (some 1), 0⟩],
    [⟨Request.plain "/in/t".toList "PUT".toList "hello".toList, Response.new,
      SourcePC.start⟩]⟩

/-- The steps that lead to `exampleWaiting`. -/
def exampleWaitingRun : List Label :=
  [Label.sinkArrives (Request.plain "/out/t".toList "GET".toList []),
   Label.sink 0 SinkStep.register, Label.sink 0 SinkStep.select,
   Label.sink 0 SinkStep.timeout, Label.sink 0 SinkStep.unregister,
   Label.sinkArrives (Request.plain "/out/t".toList "GET".toList []),
   Label.sink 1 SinkStep.register, Label.sink 1 SinkStep.select,
   Label.sourceArrives (Request.plain "/in/t".toList "PUT".toList "hello".toList)]

/-! ## Sink runs for one token that do not overlap -/

/-- The sink run is between its registration of `T` (main.go 106) and its
`delete` (151): these are the places of the code at which it still has an
access to the registry entry of `T` ahead of it. -/
def holdsToken (T : Str) : SinkPC → Bool
  | SinkPC.registered token _ => decide (token = T)
  | SinkPC.waiting token _ _ => decide (token = T)
  | SinkPC.timedOut token _ => decide (token = T)
  | SinkPC.received token _ _ => decide (token = T)
  | SinkPC.bridged token _ _ => decide (token = T)
  | _ => false

/-- The step `l` is not a registration of `T` made while another sink run
is between its own registration of `T` and its `delete`.  Every other step
passes. -/
def registersAlone (T : Str) (s : State) : Label → Bool
  | Label.sink k SinkStep.register =>
    match s.sinks[k]? with
    | some th =>
      match th.pc, getTokenExt th.outReq.Path with
      | SinkPC.start, some (token, _) =>
        if token = T then s.sinks.all (fun t => !holdsToken T t.pc) else true
      | _, _ => true
    | none => true
  | _ => true

/-- The states reached by histories in which the sink registrations of `T`
do not overlap: a sink registers `T` only when every earlier sink run for
`T` has passed its `delete` (or ended).  Nothing else is asked of the
history: any number of sink runs for `T` one after the other, and any
overlap for other tokens. -/
inductive ReachableAlone (typeByExtension : Str → Str) (T : Str) : State → Prop
  | init : ReachableAlone typeByExtension T State.init
  | step {s s1 : State} (l : Label) :
      ReachableAlone typeByExtension T s → registersAlone T s l = true →
      step typeByExtension s l = some s1 → ReachableAlone typeByExtension T s1

/-- A sequence of steps in which the registrations of `T` do not overlap. -/
def runAlone (typeByExtension : Str → Str) (T : Str) : State → List Label → Option State
  | s, [] => some s
  | s, l :: ls =>
    if registersAlone T s l then
      match step typeByExtension s l with
      | some s1 => runAlone typeByExtension T s1 ls
      | none => none
    else none

/-- While the registrations of `T` do not overlap: at most one sink run is
between its registration of `T` and its `delete`; if it has registered and
not yet entered the `select`, the registry has an entry for `T`; if it is
waiting, it waits on the channel that is the registry's entry for `T`. -/
def AloneInv (T : Str) (s : State) : Prop :=
  (∀ (k1 k2 : Nat) (t1 t2 : SinkThread), s.sinks[k1]? = some t1 → s.sinks[k2]? = some t2 →
    holdsToken T t1.pc = true → holdsToken T t2.pc = true → k1 = k2) ∧
  (∀ (k : Nat) (th : SinkThread) (ex : Str), s.sinks[k]? = some th →
    th.pc = SinkPC.registered T ex → ∃ c, s.sourceSinkMap.get T = some c) ∧
  (∀ (k : Nat) (th : SinkThread) (ex : Str) (ch : Option Chan), s.sinks[k]? = some th →
    th.pc = SinkPC.waiting T ex ch → ∃ c, ch = some c ∧ s.sourceSinkMap.get T = some c)

/-! ## Facts about the string helpers -/

theorem lastIndex_none {s : Str} {c : Char} : lastIndex s c = none ↔ c ∉ s := by
  induction s with
  | nil => simp [lastIndex]
  | cons x xs ih =>
    simp only [lastIndex, List.mem_cons, not_or]
    cases h : lastIndex xs c with
    | some i =>
      have : ¬ (c ∉ xs) := fun hc => by simp [ih.mpr hc] at h
      simp [this]
    | none =>
      have hc := ih.mp h
      by_cases hx : x = c
      · simp [hx]
      · simp [hx, hc, Ne.symm hx]

theorem lastIndex_some {s : Str} {c : Char} {i : Nat} (h : lastIndex s c = some i) :
    s.drop i = c :: s.drop (i + 1) ∧ c ∉ s.drop (i + 1) ∧ i < s.length := by
  induction s generalizing i with
  | nil => simp [lastIndex] at h
  | cons x xs ih =>
    simp only [lastIndex] at h
    cases hx : lastIndex xs c with
    | some k =>
      simp only [hx, Option.some.injEq] at h
      subst h
      have := ih hx
      simpa using this
    | none =>
      simp only [hx] at h
      split at h
      · rename_i hxc
        simp only [Option.some.injEq] at h
        subst h
        subst hxc
        simpa using lastIndex_none.mp hx
      · simp at h

theorem trimPrefix_cons (c : Char) (s : Str) : trimPrefix (c :: s) [c] = s := by
  simp [trimPrefix, List.isPrefixOf]

theorem trim_dot_ext (e : Str) (h : '.' ∉ e) : trim ('.' :: e) ['.'] = e := by
  have h1 : ∀ (l : Str), '.' ∉ l → l.dropWhile (fun c => decide (c ∈ ['.'])) = l := by
    intro l hl
    cases l with
    | nil => rfl
    | cons a t =>
      have : a ≠ '.' := fun ha => hl (by simp [ha])
      simp [List.dropWhile, this]
  unfold trim
  have : ('.' :: e).dropWhile (fun c => decide (c ∈ ['.'])) = e := by
    have h2 := h1 e h
    simpa [List.dropWhile] using h2
  rw [this, h1 e.reverse (by simpa using h), List.reverse_reverse]

theorem trimSuffix_keeps_head (c : Char) (a : Char) (t : Str) :
    ∃ r, trimSuffix (c :: a :: t) ['/'] = c :: r := by
  unfold trimSuffix
  split
  · refine ⟨(a :: t).take t.length, ?_⟩
    simp [List.take]
  · exact ⟨_, rfl⟩

/-! ## `doPrintf` has fuel enough -/

theorem parsenum_length (s : Str) (num : Nat) (isnum : Bool) :
    (parsenum s num isnum).2.2.length ≤ s.length := by
  induction s generalizing num isnum with
  | nil => simp [parsenum]
  | cons c cs ih =>
    simp only [parsenum]
    split
    · split
      · simp
      · exact Nat.le_succ_of_le (ih _ _)
    · exact Nat.le_refl _

theorem argNumber_length (r : Str) (good : Bool) :
    (argNumber r good).1.length ≤ r.length := by
  unfold argNumber
  split
  · simp only [List.length_drop]
    exact Nat.sub_le _ _
  · exact Nat.le_refl _

theorem widthStep_length (r : Str) (afterIndex good : Bool) :
    (widthStep r afterIndex good).1.length ≤ r.length := by
  unfold widthStep
  split
  · simp
  · exact parsenum_length _ _ _

theorem precStep_length (r : Str) (afterIndex good : Bool) :
    (precStep r afterIndex good).1.length ≤ r.length := by
  unfold precStep
  split
  · rename_i r1
    have h1 := argNumber_length r1 (good && !afterIndex)
    dsimp only
    generalize argNumber r1 (good && !afterIndex) = x1 at h1 ⊢
    obtain ⟨r2, ai, g⟩ := x1
    dsimp only at h1 ⊢
    split
    · rename_i r3
      simp only [List.length_cons] at h1 ⊢
      omega
    · have h2 := parsenum_length r2 0 false
      generalize parsenum r2 0 false = x2 at h2 ⊢
      obtain ⟨n1, b1, r3⟩ := x2
      simp only [List.length_cons] at h2 ⊢
      omega
  · exact Nat.le_refl _

theorem verbStep_length (r r1 : Str) (out : Str) (h : verbStep r = (out, some r1)) :
    r1.length < r.length := by
  unfold verbStep at h
  have h0 : (r.dropWhile (fun c => decide (c ∈ ['#', '0', '+', '-', ' ']))).length
      ≤ r.length := (List.dropWhile_sublist _).length_le
  dsimp only at h
  generalize r.dropWhile (fun c => decide (c ∈ ['#', '0', '+', '-', ' '])) = ra at h h0
  have h1 := argNumber_length ra true
  generalize argNumber ra true = x1 at h h1
  obtain ⟨rb, ai1, g1⟩ := x1
  dsimp only at h h1
  have h2 := widthStep_length rb ai1 g1
  generalize widthStep rb ai1 g1 = x2 at h h2
  obtain ⟨rc, o1, ai2, g2⟩ := x2
  dsimp only at h h2
  have h3 := precStep_length rc ai2 g2
  generalize precStep rc ai2 g2 = x3 at h h3
  obtain ⟨rd, o2, ai3, g3⟩ := x3
  dsimp only at h h3
  have h4 := argNumber_length rd g3
  generalize argNumber rd g3 = x4 at h h4
  obtain ⟨re, ai4, g4⟩ := x4
  dsimp only at h h4
  cases ai3 with
  | true =>
    simp only [if_true] at h
    split at h
    · cases h
    · rename_i verb r2
      simp only [Prod.mk.injEq, Option.some.injEq] at h
      obtain ⟨_, rfl⟩ := h
      simp only [List.length_cons] at h3
      omega
  | false =>
    simp only [Bool.false_eq_true, if_false] at h
    split at h
    · cases h
    · rename_i verb r2
      simp only [Prod.mk.injEq, Option.some.injEq] at h
      obtain ⟨_, rfl⟩ := h
      simp only [List.length_cons] at h4
      omega

theorem doPrintf_fuel (n : Nat) :
    ∀ (m : Nat) (format : Str), format.length < n → format.length < m →
      doPrintf n format = doPrintf m format := by
  induction n with
  | zero => intro m format h; exact absurd h (Nat.not_lt_zero _)
  | succ n ih =>
    intro m format hn hm
    cases m with
    | zero => exact absurd hm (Nat.not_lt_zero _)
    | succ m =>
      simp only [doPrintf]
      have hd : (format.dropWhile (fun c => decide (c ≠ '%'))).length ≤ format.length :=
        (List.dropWhile_sublist _).length_le
      split
      · rfl
      · rename_i c r hr
        rw [hr] at hd
        simp only [List.length_cons] at hd
        cases hv : verbStep r with
        | mk out next =>
          cases next with
          | none => rfl
          | some r1 =>
            have hlt := verbStep_length r r1 out hv
            simp only
            rw [ih m r1 (by omega) (by omega)]

theorem fprintf0_plain (format : Str) (h : '%' ∉ format) : fprintf0 format = format := by
  have h1 : format.dropWhile (fun c => decide (c ≠ '%')) = [] := by
    rw [List.dropWhile_eq_nil_iff]
    intro x hx
    have : x ≠ '%' := fun hc => h (hc ▸ hx)
    simpa using this
  have h2 : format.takeWhile (fun c => decide (c ≠ '%')) = format := by
    rw [List.takeWhile_eq_self_iff]
    intro x hx
    have : x ≠ '%' := fun hc => h (hc ▸ hx)
    simpa using this
  simp only [fprintf0, doPrintf, h1, h2]

/-! ## Facts about maps -/

theorem GoMap.find_remove_self {α : Type} (l : List (Str × α)) (k : Str) :
    GoMap.find (GoMap.remove l k) k = none := by
  induction l with
  | nil => rfl
  | cons e rest ih =>
    obtain ⟨k1, v⟩ := e
    by_cases h : k1 = k
    · simp [GoMap.remove, h, ih]
    · simp [GoMap.remove, h, GoMap.find, ih]

theorem GoMap.find_remove_ne {α : Type} (l : List (Str × α)) (k key : Str) (hk : key ≠ k) :
    GoMap.find (GoMap.remove l k) key = GoMap.find l key := by
  induction l with
  | nil => rfl
  | cons e rest ih =>
    obtain ⟨k1, v⟩ := e
    by_cases h : k1 = k
    · subst h
      simp [GoMap.remove, GoMap.find, ih, Ne.symm hk]
    · by_cases h2 : k1 = key
      · subst h2
        simp [GoMap.remove, h, GoMap.find]
      · simp [GoMap.remove, h, GoMap.find, h2, ih]

theorem GoMap.get_delete_self {α : Type} (m : GoMap α) (k : Str) :
    (m.delete k).get k = none :=
  GoMap.find_remove_self m.entries k

theorem GoMap.get_delete_ne {α : Type} (m : GoMap α) (k key : Str) (hk : key ≠ k) :
    (m.delete k).get key = m.get key :=
  GoMap.find_remove_ne m.entries k key hk

theorem GoMap.get_set_self {α : Type} (m : GoMap α) (k : Str) (v : α) :
    (m.set k v).get k = some v := by
  simp [GoMap.set, GoMap.get, GoMap.find]

theorem GoMap.get_set_ne {α : Type} (m : GoMap α) (k key : Str) (v : α) (hk : key ≠ k) :
    (m.set k v).get key = m.get key := by
  simp only [GoMap.set, GoMap.get, GoMap.find, if_neg (Ne.symm hk)]
  exact GoMap.find_remove_ne m.entries k key hk

/-! ## Facts about single steps -/

theorem lookup_notFound (tbe : Str → Str) (s : State) (j : Nat) (th : SourceThread)
    (token ext : Str) (hth : s.sources[j]? = some th) (hpc : th.pc = SourcePC.start)
    (hpath : getTokenExt th.req.Path = some (token, ext))
    (hreg : s.sourceSinkMap.get token = none) :
    sourceHandler tbe s j SourceStep.lookup =
      some (s.setSource j
        { th with rw := httpNotFound th.rw, pc := SourcePC.returned SourceEnd.notFound }) := by
  simp only [sourceHandler, hth, hpc, hpath, hreg]

theorem handoff_inv {s s1 : State} {j i : Nat} (h : handoff s j i = some s1) :
    ∃ src snk token ext ch srcReq tk ex,
      s.sources[j]? = some src ∧ s.sinks[i]? = some snk ∧
      src.pc = SourcePC.sending token ext ch srcReq ∧
      snk.pc = SinkPC.waiting tk ex (some ch) ∧
      s1 = (s.setSource j { src with pc := SourcePC.awaiting token ext srcReq.done }).setSink i
          { snk with pc := SinkPC.received tk ex srcReq } := by
  unfold handoff at h
  split at h
  · rename_i src snk hsrc hsnk
    split at h
    · rename_i token ext ch srcReq tk ex c hp1 hp2
      split at h
      · rename_i hc
        subst hc
        simp only [Option.some.injEq] at h
        exact ⟨src, snk, token, ext, _, srcReq, tk, ex, hsrc, hsnk, hp1, hp2, h.symm⟩
      · cases h
    · cases h
  · cases h

theorem signal_inv {s s1 : State} {i j : Nat} (h : signal s i j = some s1) :
    ∃ snk src sourceReq token ext,
      s.sinks[i]? = some snk ∧ s.sources[j]? = some src ∧
      snk.pc = SinkPC.signalling sourceReq ∧
      src.pc = SourcePC.awaiting token ext sourceReq.done ∧
      s1 = (s.setSink i
          { snk with pc := SinkPC.returned true, doneSent := snk.doneSent + 1 }).setSource j
          { src with pc := SourcePC.returned SourceEnd.done } := by
  unfold signal at h
  split at h
  · rename_i snk src hsnk hsrc
    split at h
    · rename_i sourceReq token ext d hp1 hp2
      split at h
      · rename_i hc
        subst hc
        simp only [Option.some.injEq] at h
        exact ⟨snk, src, sourceReq, token, ext, hsnk, hsrc, hp1, hp2, h.symm⟩
      · cases h
    · cases h
  · cases h

theorem getElem?_set_same {α : Type} (l : List α) (i : Nat) (a b : α) (h : l[i]? = some a) :
    (l.set i b)[i]? = some b := by
  have hi : i < l.length := by
    rcases Nat.lt_or_ge i l.length with hlt | hge
    · exact hlt
    · rw [List.getElem?_eq_none hge] at h; cases h
  simp [List.getElem?_set, hi]

/-- C1: for every token and every state of the registry without an entry for
it, `sourceHandler` on a path naming the token answers with `http.NotFound`
(status 404) and returns at once: the registry, the channels and every other
handler run are as before, and the run never gets to the send on the sink's
channel or the wait on `done`. -/
theorem source_without_sink_notFound (tbe : Str → Str) (s : State) (j : Nat)
    (th : SourceThread) (token ext : Str)
    (hth : s.sources[j]? = some th) (hpc : th.pc = SourcePC.start)
    (hpath : getTokenExt th.req.Path = some (token, ext))
    (hreg : s.sourceSinkMap.get token = none) :
    ∃ s1, step tbe s (Label.source j SourceStep.lookup) = some s1 ∧
      s1.sourceSinkMap = s.sourceSinkMap ∧ s1.nextChan = s.nextChan ∧ s1.sinks = s.sinks ∧
      s1.sources = s.sources.set j
        { th with rw := httpNotFound th.rw, pc := SourcePC.returned SourceEnd.notFound } ∧
      (httpNotFound th.rw).status = some 404 ∧
      (∀ a, step tbe s1 (Label.source j a) = none) ∧
      (∀ i, step tbe s1 (Label.handoff j i) = none) ∧
      (∀ i, step tbe s1 (Label.signal i j) = none) := by
  refine ⟨_, lookup_notFound tbe s j th token ext hth hpc hpath hreg, rfl, rfl, rfl, rfl, rfl,
    ?_, ?_, ?_⟩
  · intro a
    simp only [step, sourceHandler, State.setSource, getElem?_set_same _ _ _ _ hth]
  · intro i
    cases h : step tbe (s.setSource j
        { th with rw := httpNotFound th.rw, pc := SourcePC.returned SourceEnd.notFound })
        (Label.handoff j i) with
    | none => rfl
    | some s2 =>
      obtain ⟨src, _, _, _, _, _, _, _, h1, _, h2, _⟩ := handoff_inv h
      simp only [State.setSource, getElem?_set_same _ _ _ _ hth, Option.some.injEq] at h1
      subst h1
      cases h2
  · intro i
    cases h : step tbe (s.setSource j
        { th with rw := httpNotFound th.rw, pc := SourcePC.returned SourceEnd.notFound })
        (Label.signal i j) with
    | none => rfl
    | some s2 =>
      obtain ⟨_, src, _, _, _, _, h1, _, h2, _⟩ := signal_inv h
      simp only [State.setSource, getElem?_set_same _ _ _ _ hth, Option.some.injEq] at h1
      subst h1
      cases h2

theorem sourceGetsNotFound_of_get (tbe : Str → Str) (s : State) (token : Str)
    (h : s.sourceSinkMap.get token = none) : SourceGetsNotFound tbe s token := by
  refine ⟨h, ?_⟩
  intro j src ext hsrc hpc hpath
  refine ⟨_, lookup_notFound tbe s j src token ext hsrc hpc hpath h, ?_⟩
  simp only [State.setSource, getElem?_set_same _ _ _ _ hsrc]
  rfl

theorem firstValues_some (l : List (Str × List Str)) (acc : GoMap Str)
    (h : ∀ kv ∈ l, kv.2 ≠ []) : ∃ params, firstValues l acc = some params := by
  induction l generalizing acc with
  | nil => exact ⟨acc, rfl⟩
  | cons e rest ih =>
    obtain ⟨k, vs⟩ := e
    cases vs with
    | nil => exact absurd rfl (h (k, []) (by simp))
    | cons v t =>
      simp only [firstValues]
      exact ih _ (fun kv hkv => h kv (by simp [hkv]))

theorem sinkBridge_panicked {ext : Str} {outBody : Reader} {req : Request} {order : List Str}
    {b : Bridged} (hne : ∀ kv ∈ req.Form.entries, kv.2 ≠ [])
    (h : sinkBridge ext outBody req order = some b) : b.panicked = false := by
  obtain ⟨params, hp⟩ := firstValues_some req.Form.entries GoMap.empty hne
  simp only [sinkBridge, hp] at h
  split at h
  · cases h; rfl
  · split at h
    · cases h; rfl
    · cases h

theorem sinkBridge_enabled (ext : Str) (outBody : Reader) (req : Request) :
    ∃ order b, sinkBridge ext outBody req order = some b := by
  cases hp : firstValues req.Form.entries GoMap.empty with
  | none => exact ⟨[], _, by simp only [sinkBridge, hp]; rfl⟩
  | some params =>
    refine ⟨params.keys, ?_⟩
    simp only [sinkBridge, hp]
    split
    · exact ⟨_, rfl⟩
    · simp only [List.Perm.refl, if_true]
      exact ⟨_, rfl⟩

theorem writeSource_sinks (s : State) (j : Nat) (bytes : Str) :
    (s.writeSource j bytes).sinks = s.sinks := by
  unfold State.writeSource
  split <;> rfl

theorem writeSource_sourceSinkMap (s : State) (j : Nat) (bytes : Str) :
    (s.writeSource j bytes).sourceSinkMap = s.sourceSinkMap := by
  unfold State.writeSource
  split <;> rfl

/-- C2: whichever way the wait of a sink for `token` ends, the registry has no
entry for `token` once the handler has done its work: after a timeout the
`delete` step follows at once; after a parcel (whatever the body copies
report, the form being one that form parsing builds, every name with at
least one value) the bridging step can be taken and is followed by the
`delete` step; in both cases a later source for `token` gets
`http.NotFound`. -/
theorem sink_unregisters_token (tbe : Str → Str) (s : State) (i : Nat) (th : SinkThread)
    (token ext : Str) (hth : s.sinks[i]? = some th) :
    (th.pc = SinkPC.timedOut token ext →
      ∃ s1, step tbe s (Label.sink i SinkStep.unregister) = some s1 ∧
        SourceGetsNotFound tbe s1 token ∧
        (s1.sinks[i]?).map (fun t => t.pc) = some (SinkPC.returned false)) ∧
    (∀ sourceReq, th.pc = SinkPC.received token ext sourceReq →
      (∀ kv ∈ sourceReq.req.Form.entries, kv.2 ≠ []) →
      (∃ order s1, step tbe s (Label.sink i (SinkStep.bridge order)) = some s1) ∧
      ∀ order s1, step tbe s (Label.sink i (SinkStep.bridge order)) = some s1 →
        ∃ s2, step tbe s1 (Label.sink i SinkStep.unregister) = some s2 ∧
          SourceGetsNotFound tbe s2 token ∧
          (s2.sinks[i]?).map (fun t => t.pc) = some (SinkPC.signalling sourceReq)) := by
  constructor
  · intro hpc
    refine ⟨_, by simp only [step, sinkHandler, hth, hpc]; rfl, ?_, ?_⟩
    · exact sourceGetsNotFound_of_get _ _ _ (GoMap.get_delete_self _ _)
    · simp only [State.setSink, getElem?_set_same _ _ _ _ hth]
      rfl
  · intro sourceReq hpc hne
    constructor
    · obtain ⟨order, b, hb⟩ := sinkBridge_enabled ext th.outReq.Body sourceReq.req
      exact ⟨order, _, by simp only [step, sinkHandler, hth, hpc, hb]; rfl⟩
    · intro order s1 hstep
      simp only [step, sinkHandler, hth, hpc] at hstep
      cases hb : sinkBridge ext th.outReq.Body sourceReq.req order with
      | none => simp only [hb] at hstep; cases hstep
      | some b =>
        simp only [hb, sinkBridge_panicked hne hb, Option.some.injEq] at hstep
        subst hstep
        have hi : (s.writeSource sourceReq.rw b.toSource).sinks[i]? = some th := by
          rw [writeSource_sinks]; exact hth
        refine ⟨_, by
          simp only [step, sinkHandler, State.setSink, getElem?_set_same _ _ _ _ hi]; rfl, ?_, ?_⟩
        · exact sourceGetsNotFound_of_get _ _ _ (GoMap.get_delete_self _ _)
        · simp only [State.setSink, List.set_set, getElem?_set_same _ _ _ _ hi]
          rfl

/-! ## The parameter block -/

theorem GoMap.remove_of_not_mem {α : Type} (l : List (Str × α)) (k : Str)
    (h : k ∉ l.map Prod.fst) : GoMap.remove l k = l := by
  induction l with
  | nil => rfl
  | cons e rest ih =>
    obtain ⟨k1, v⟩ := e
    simp only [List.map_cons, List.mem_cons, not_or] at h
    simp [GoMap.remove, Ne.symm h.1, ih h.2]

theorem GoMap.find_of_mem_nodup {α : Type} (l : List (Str × α)) (k : Str) (v : α)
    (hnd : (l.map Prod.fst).Nodup) (hm : (k, v) ∈ l) : GoMap.find l k = some v := by
  induction l with
  | nil => cases hm
  | cons e rest ih =>
    obtain ⟨k1, v1⟩ := e
    simp only [List.map_cons, List.nodup_cons] at hnd
    rcases List.mem_cons.mp hm with h | h
    · cases h
      simp [GoMap.find]
    · have : k1 ≠ k := by
        intro hk
        subst hk
        exact hnd.1 (List.mem_map.mpr ⟨(k1, v), h, rfl⟩)
      simp [GoMap.find, this, ih hnd.2 h]

theorem firstValues_nodup (l : List (Str × List Str)) (acc : GoMap Str)
    (hnd : (l.map Prod.fst).Nodup) (hdis : ∀ k ∈ l.map Prod.fst, k ∉ acc.keys)
    (hne : ∀ kv ∈ l, kv.2 ≠ []) :
    firstValues l acc =
      some ⟨(l.map (fun kv => (kv.1, kv.2.headD []))).reverse ++ acc.entries⟩ := by
  induction l generalizing acc with
  | nil => rfl
  | cons e rest ih =>
    obtain ⟨k, vs⟩ := e
    cases vs with
    | nil => exact absurd rfl (hne (k, []) (by simp))
    | cons v t =>
      simp only [List.map_cons, List.nodup_cons] at hnd
      have hk : k ∉ acc.keys := hdis k (by simp)
      have hset : acc.set k v = ⟨(k, v) :: acc.entries⟩ := by
        simp only [GoMap.set, GoMap.delete, GoMap.remove_of_not_mem _ _ hk]
      simp only [firstValues, hset]
      rw [ih _ hnd.2 ?_ (fun kv hkv => hne kv (by simp [hkv]))]
      · simp
      · intro k1 hk1
        simp only [GoMap.keys, List.map_cons, List.mem_cons, not_or]
        refine ⟨?_, hdis k1 (by simp [hk1])⟩
        intro h
        subst h
        exact hnd.1 hk1

theorem plainBlock_lines (order : List Str) (params : GoMap Str) (val : Str → Str)
    (h : ∀ k ∈ order, params.get k = some (val k)) :
    plainBlock order params = order.flatMap (fun k => k ++ '=' :: val k ++ ['\n']) := by
  induction order with
  | nil => rfl
  | cons k ks ih =>
    have hk := h k (by simp)
    have := ih (fun k1 hk1 => h k1 (by simp [hk1]))
    simp only [plainBlock, rangeOver] at this ⊢
    simp only [List.filterMap_cons, hk, Option.map_some', List.flatMap_cons, this]
    rfl

/-- C6: for every source form in which every parameter name has a non-empty
list of values, with an extension other than `.json` the bridging does not
panic (no index out of range in `values[0]`) and the block it writes is one
line `name=value` and a newline per distinct parameter name, in the order of
this run's map iteration (any order of the names, and only those), `value`
being the first value of the name, nothing escaped; the rest of the source's
body follows the block. -/
theorem plain_text_block (ext : Str) (outBody : Reader) (req : Request) (order : List Str)
    (hext : ext ≠ ".json".toList) (hnd : req.Form.keys.Nodup)
    (hne : ∀ kv ∈ req.Form.entries, kv.2 ≠ []) :
    ((sinkBridge ext outBody req order).isSome ↔ order.Perm req.Form.keys) ∧
    (order.Perm req.Form.keys →
      sinkBridge ext outBody req order = some
        { toSource := outBody.bytes
          toSink := order.flatMap (fun name =>
              name ++ '=' :: ((req.Form.get name).bind List.head?).getD [] ++ ['\n'])
            ++ (bodyAfterParseForm req).bytes
          panicked := false }) := by
  have hfv := firstValues_nodup req.Form.entries GoMap.empty hnd (by simp [GoMap.keys, GoMap.empty]) hne
  have hkeys : ∀ o : List Str,
      o.Perm (GoMap.keys ⟨(req.Form.entries.map (fun kv => (kv.1, kv.2.headD []))).reverse
        ++ (GoMap.empty : GoMap Str).entries⟩) ↔ o.Perm req.Form.keys := by
    intro o
    have : GoMap.keys ⟨(req.Form.entries.map (fun kv => (kv.1, kv.2.headD []))).reverse
        ++ (GoMap.empty : GoMap Str).entries⟩ = req.Form.keys.reverse := by
      simp [GoMap.keys, GoMap.empty, List.map_reverse, Function.comp_def]
    rw [this]
    exact ⟨fun h => h.trans (List.reverse_perm _), fun h => h.trans (List.reverse_perm _).symm⟩
  constructor
  · simp only [sinkBridge, hfv, if_neg hext]
    split
    · rename_i hp
      simp [(hkeys order).mp hp]
    · rename_i hp
      simp only [Option.isSome_none, Bool.false_eq_true, false_iff]
      exact fun h => hp ((hkeys order).mpr h)
  · intro hp
    simp only [sinkBridge, hfv, if_neg hext, if_pos ((hkeys order).mpr hp)]
    congr 2
    congr 1
    apply plainBlock_lines
    intro k hk
    have hkm : k ∈ req.Form.entries.map Prod.fst := hp.mem_iff.mp hk
    obtain ⟨⟨k1, vs⟩, hmem, hk1⟩ := List.mem_map.mp hkm
    simp only at hk1
    subst hk1
    have hget : req.Form.get k1 = some vs := GoMap.find_of_mem_nodup _ _ _ hnd hmem
    have hvs : vs ≠ [] := hne _ hmem
    obtain ⟨v, t, rfl⟩ := List.exists_cons_of_ne_nil hvs
    simp only [hget, Option.some_bind, List.head?_cons, Option.getD_some]
    apply GoMap.find_of_mem_nodup
    · simpa [GoMap.empty, List.map_reverse, Function.comp_def] using hnd
    · simp only [GoMap.empty, List.append_nil, List.mem_reverse, List.mem_map]
      exact ⟨(k1, v :: t), hmem, rfl⟩

/-- Witness for C6: the form `b=2&a=1&a=9`, visited in the order `a`, `b`. -/
theorem plain_text_block_witness :
    sinkBridge ".txt".toList ⟨"body".toList, false⟩
        ⟨"/in/t".toList, "GET".toList, ⟨[], false⟩, false,
          ⟨[("b".toList, ["2".toList]), ("a".toList, ["1".toList, "9".toList])]⟩⟩
        ["a".toList, "b".toList] =
      some { toSource := "body".toList, toSink := "a=1\nb=2\n".toList, panicked := false } :=
  (plain_text_block ".txt".toList ⟨"body".toList, false⟩
    ⟨"/in/t".toList, "GET".toList, ⟨[], false⟩, false,
      ⟨[("b".toList, ["2".toList]), ("a".toList, ["1".toList, "9".toList])]⟩⟩
    ["a".toList, "b".toList] (by decide) (by decide) (by decide)).2 (by decide)

/-! ## What the bridging step writes -/

theorem bridge_step_inv {tbe : Str → Str} {s s1 : State} {i : Nat} {th : SinkThread}
    {token ext : Str} {sourceReq : SourceRequest} {order : List Str}
    (hth : s.sinks[i]? = some th) (hpc : th.pc = SinkPC.received token ext sourceReq)
    (hstep : step tbe s (Label.sink i (SinkStep.bridge order)) = some s1) :
    ∃ b, sinkBridge ext th.outReq.Body sourceReq.req order = some b ∧
      s1 = (s.writeSource sourceReq.rw b.toSource).setSink i
        { th with
          outRw := (th.outRw.addHeader "Content-Type".toList (typeForExt tbe ext)).write b.toSink
          pc := if b.panicked then SinkPC.signalling sourceReq
                else SinkPC.bridged token ext sourceReq } := by
  simp only [step, sinkHandler, hth, hpc] at hstep
  cases hb : sinkBridge ext th.outReq.Body sourceReq.req order with
  | none => simp only [hb] at hstep; cases hstep
  | some b =>
    simp only [hb, Option.some.injEq] at hstep
    exact ⟨b, rfl, hstep.symm⟩

theorem bridge_step_sink {s : State} {i j : Nat} {th th1 : SinkThread} {bytes : Str}
    (hth : s.sinks[i]? = some th) :
    ((s.writeSource j bytes).setSink i th1).sinks[i]? = some th1 := by
  have hi : (s.writeSource j bytes).sinks[i]? = some th := by
    rw [writeSource_sinks]; exact hth
  simp only [State.setSink, getElem?_set_same _ _ _ _ hi]

/-- C3 (as the code has it): when a parcel is received and the extension is
not `.json`, the sink's response grows by the parameter block followed by
the bytes of the source's request body that form parsing left unread, byte
for byte; that is the whole body unless the request is form-encoded.  With
`.json` the sink's response grows by the JSON parameter block alone: the
source's body is not copied. -/
theorem sink_response_after_bridge (tbe : Str → Str) (s s1 : State) (i : Nat)
    (th : SinkThread) (token ext : Str) (sourceReq : SourceRequest) (order : List Str)
    (params : GoMap Str)
    (hth : s.sinks[i]? = some th) (hpc : th.pc = SinkPC.received token ext sourceReq)
    (hparams : firstValues sourceReq.req.Form.entries GoMap.empty = some params)
    (hstep : step tbe s (Label.sink i (SinkStep.bridge order)) = some s1) :
    (ext ≠ ".json".toList →
      (s1.sinks[i]?).map (fun t => t.outRw.body) =
        some (th.outRw.body ++ plainBlock order params
          ++ (bodyAfterParseForm sourceReq.req).bytes) ∧
      (sourceReq.req.formEncoded = false →
        (s1.sinks[i]?).map (fun t => t.outRw.body) =
          some (th.outRw.body ++ plainBlock order params ++ sourceReq.req.Body.bytes))) ∧
    (ext = ".json".toList →
      (s1.sinks[i]?).map (fun t => t.outRw.body) = some (th.outRw.body ++ jsonBlock params)) := by
  obtain ⟨b, hb, rfl⟩ := bridge_step_inv hth hpc hstep
  rw [bridge_step_sink hth]
  simp only [sinkBridge, hparams] at hb
  constructor
  · intro hext
    simp only [if_neg hext] at hb
    split at hb
    · cases hb
      have h1 : ((th.outRw.addHeader "Content-Type".toList (typeForExt tbe ext)).write
            (plainBlock order params ++ (bodyAfterParseForm sourceReq.req).bytes)).body =
          th.outRw.body ++ plainBlock order params ++ (bodyAfterParseForm sourceReq.req).bytes := by
        simp [Response.write, Response.addHeader]
      refine ⟨by simp only [Option.map_some', h1], ?_⟩
      intro hf
      simp [bodyAfterParseForm, hf, Response.write, Response.addHeader]
    · cases hb
  · intro hext
    simp only [if_pos hext] at hb
    cases hb
    simp [Response.write, Response.addHeader]

/-- Witness for C3: a plain-text sink and a source whose body is `hello`. -/
theorem sink_response_after_bridge_witness :
    (run (fun _ => []) State.init
      [Label.sinkArrives (Request.plain "/out/t".toList "GET".toList []),
       Label.sink 0 SinkStep.register, Label.sink 0 SinkStep.select,
       Label.sourceArrives (Request.plain "/in/t".toList "PUT".toList "hello".toList),
       Label.source 0 SourceStep.lookup, Label.handoff 0 0,
       Label.sink 0 (SinkStep.bridge [])]).map
        (fun s => (s.sinks[0]?).map (fun t => t.outRw.body)) = some (some "hello".toList) ∧
    ∃ s1, step (fun _ => []) exampleReceived (Label.sink 0 (SinkStep.bridge [])) = some s1 ∧
      (s1.sinks[0]?).map (fun t => t.outRw.body) = some ("hello".toList) := by
  refine ⟨by decide, ?_⟩
  have hb : step (fun _ => []) exampleReceived (Label.sink 0 (SinkStep.bridge [])) ≠ none := by
    decide
  cases hs : step (fun _ => []) exampleReceived (Label.sink 0 (SinkStep.bridge [])) with
  | none => exact absurd hs hb
  | some s1 =>
    exact ⟨s1, rfl, ((sink_response_after_bridge (fun _ => []) exampleReceived s1 0
      exampleSink "t".toList ".txt".toList
      ⟨0, Request.plain "/in/t".toList "PUT".toList "hello".toList, 1⟩ [] GoMap.empty
      rfl rfl rfl hs).1 (by decide)).1⟩

/-- C3 fails as stated: with extension `.json` the sink's response is the
JSON block `{}` and a newline; the source's body `hello` is nowhere in
it. -/
theorem json_sink_response_lacks_source_body :
    (run (fun _ => []) State.init
      [Label.sinkArrives (Request.plain "/out/t.json".toList "GET".toList []),
       Label.sink 0 SinkStep.register, Label.sink 0 SinkStep.select,
       Label.sourceArrives (Request.plain "/in/t".toList "PUT".toList "hello".toList),
       Label.source 0 SourceStep.lookup, Label.handoff 0 0,
       Label.sink 0 (SinkStep.bridge []), Label.sink 0 SinkStep.unregister,
       Label.signal 0 0]).map
        (fun s => s.sinks.map (fun t => (t.pc, t.outRw.body))) =
      some [(SinkPC.returned true, "\x7b\x7d\n".toList)] ∧
    ¬ ("hello".toList <:+: "\x7b\x7d\n".toList) := by
  constructor
  · decide
  · decide

/-- C4 (as the code has it): when a parcel is received, the bytes written to
the source's response are exactly the sink's request body, whatever the
form and the format; the rendered parameter block (JSON or `key=value`
lines, by format) is written to the sink's own response. -/
theorem source_response_after_bridge (tbe : Str → Str) (s s1 : State) (i : Nat)
    (th : SinkThread) (token ext : Str) (sourceReq : SourceRequest) (order : List Str)
    (src : SourceThread)
    (hth : s.sinks[i]? = some th) (hpc : th.pc = SinkPC.received token ext sourceReq)
    (hsrc : s.sources[sourceReq.rw]? = some src)
    (hstep : step tbe s (Label.sink i (SinkStep.bridge order)) = some s1) :
    (s1.sources[sourceReq.rw]?).map (fun t => t.rw.body) =
      some (src.rw.body ++ th.outReq.Body.bytes) ∧
    ∀ params, firstValues sourceReq.req.Form.entries GoMap.empty = some params →
      ∃ tail, (s1.sinks[i]?).map (fun t => t.outRw.body) =
        some (th.outRw.body ++
          (if ext = ".json".toList then jsonBlock params else plainBlock order params)
          ++ tail) := by
  obtain ⟨b, hb, rfl⟩ := bridge_step_inv hth hpc hstep
  constructor
  · have hsrc1 : b.toSource = th.outReq.Body.bytes := by
      simp only [sinkBridge] at hb
      split at hb
      · cases hb; rfl
      · split at hb
        · cases hb; rfl
        · split at hb
          · cases hb; rfl
          · cases hb
    simp only [State.setSink, State.writeSource, hsrc, State.setSource,
      getElem?_set_same _ _ _ _ hsrc, Option.map_some', Response.write, hsrc1]
  · intro params hparams
    rw [bridge_step_sink hth]
    simp only [sinkBridge, hparams] at hb
    split at hb
    · rename_i hext
      cases hb
      exact ⟨[], by simp [Response.write, Response.addHeader, hext]⟩
    · rename_i hext
      split at hb
      · cases hb
        have hext1 : ¬ ext = ['.', 'j', 's', 'o', 'n'] := hext
        exact ⟨(bodyAfterParseForm sourceReq.req).bytes, by
          simp [Response.write, Response.addHeader, hext1]⟩
      · cases hb

/-- C4 fails as stated: sink `/out/abc123.json` with body `hi`, source form
`name=bob`.  The source's response is `hi` alone; the JSON block went to the
sink's response. -/
theorem source_response_has_no_parameter_block :
    (run (fun _ => []) State.init
      [Label.sinkArrives (Request.plain "/out/abc123.json".toList "POST".toList "hi".toList),
       Label.sink 0 SinkStep.register, Label.sink 0 SinkStep.select,
       Label.sourceArrives ⟨"/in/abc123".toList, "POST".toList, ⟨"name=bob".toList, false⟩,
         true, ⟨[("name".toList, ["bob".toList])]⟩⟩,
       Label.source 0 SourceStep.lookup, Label.handoff 0 0,
       Label.sink 0 (SinkStep.bridge []), Label.sink 0 SinkStep.unregister,
       Label.signal 0 0]).map
        (fun s => (s.sources.map (fun t => (t.pc, t.rw.body)),
                   s.sinks.map (fun t => t.outRw.body))) =
      some ([(SourcePC.returned SourceEnd.done, "hi".toList)],
            ["\x7b\n    \"name\": \"bob\"\n\x7d\n".toList]) ∧
    "hi".toList ≠ "\x7b\n    \"name\": \"bob\"\n\x7d\n".toList ++ "hi".toList := by
  constructor
  · decide
  · decide

/-- C5, the code at the failing input: for the form `a=100%` and extension
`.json` the block written is not the JSON text and a newline, because the
JSON text is used as the format string of `fmt.Fprintf` and the `%` in it is
read as a verb without operand. -/
theorem json_block_percent :
    jsonMarshalIndent ⟨[("a".toList, "100%".toList)]⟩ =
      "\x7b\n    \"a\": \"100%\"\n\x7d".toList ∧
    sinkBridge ".json".toList ⟨[], false⟩
        ⟨"/in/t".toList, "GET".toList, ⟨[], false⟩, false, ⟨[("a".toList, ["100%".toList])]⟩⟩
        [] =
      some { toSource := []
             toSink := "\x7b\n    \"a\": \"100%!\"(MISSING)\n\x7d\n".toList
             panicked := false } := by
  constructor
  · decide
  · decide

/-- C10, the code at the failing input: for the path `/out/.json` the token
is empty, the redirect is written, and the handler goes on: it registers the
empty token in the registry and waits on the new channel. -/
theorem empty_token_is_registered :
    getTokenExt "/out/.json".toList = some ([], ".json".toList) ∧
    (run (fun _ => []) State.init
      [Label.sinkArrives (Request.plain "/out/.json".toList "POST".toList []),
       Label.sink 0 SinkStep.register, Label.sink 0 SinkStep.select]).map
        (fun s => (s.sourceSinkMap,
                   s.sinks.map (fun t => (t.outRw.status, t.pc)))) =
      some (⟨[([], 0)]⟩, [(some 307, SinkPC.waiting [] ".json".toList (some 0))]) := by
  constructor
  · decide
  · decide

/-! ## Inversion of the handler steps -/

theorem getElem?_set_cases {α : Type} {l : List α} {i k : Nat} {a x : α}
    (h : (l.set i a)[k]? = some x) : (k = i ∧ x = a) ∨ (k ≠ i ∧ l[k]? = some x) := by
  rw [List.getElem?_set] at h
  split at h
  · rename_i hik
    split at h
    · cases h; exact Or.inl ⟨hik.symm, rfl⟩
    · cases h
  · rename_i hik
    exact Or.inr ⟨fun hk => hik hk.symm, h⟩

theorem sinkHandler_inv {tbe : Str → Str} {s s1 : State} {i : Nat} {a : SinkStep}
    (h : sinkHandler tbe s i a = some s1) :
    ∃ th, s.sinks[i]? = some th ∧
      ((th.pc = SinkPC.start ∧ a = SinkStep.register ∧
          s1 = s.setSink i { th with pc := SinkPC.returned false }) ∨
       (∃ token ext, th.pc = SinkPC.start ∧ a = SinkStep.register ∧
          getTokenExt th.outReq.Path = some (token, ext) ∧
          s1 = State.setSink
            { s with sourceSinkMap := s.sourceSinkMap.set token s.nextChan
                     nextChan := s.nextChan + 1 } i
            { th with outRw := if token = [] then httpRedirect th.outRw th.outReq else th.outRw
                      pc := SinkPC.registered token ext }) ∨
       (∃ token ext, th.pc = SinkPC.registered token ext ∧ a = SinkStep.select ∧
          s1 = s.setSink i
            { th with pc := SinkPC.waiting token ext (s.sourceSinkMap.get token) }) ∨
       (∃ token ext ch, th.pc = SinkPC.waiting token ext ch ∧ a = SinkStep.timeout ∧
          s1 = s.setSink i { th with pc := SinkPC.timedOut token ext }) ∨
       (∃ token ext sourceReq order b, th.pc = SinkPC.received token ext sourceReq ∧
          a = SinkStep.bridge order ∧
          sinkBridge ext th.outReq.Body sourceReq.req order = some b ∧
          s1 = (s.writeSource sourceReq.rw b.toSource).setSink i
            { th with
              outRw := (th.outRw.addHeader "Content-Type".toList (typeForExt tbe ext)).write
                b.toSink
              pc := if b.panicked then SinkPC.signalling sourceReq
                    else SinkPC.bridged token ext sourceReq }) ∨
       (∃ token ext, th.pc = SinkPC.timedOut token ext ∧ a = SinkStep.unregister ∧
          s1 = State.setSink { s with sourceSinkMap := s.sourceSinkMap.delete token } i
            { th with pc := SinkPC.returned false }) ∨
       (∃ token ext sourceReq, th.pc = SinkPC.bridged token ext sourceReq ∧
          a = SinkStep.unregister ∧
          s1 = State.setSink { s with sourceSinkMap := s.sourceSinkMap.delete token } i
            { th with pc := SinkPC.signalling sourceReq })) := by
  unfold sinkHandler at h
  split at h
  · cases h
  · rename_i th hth
    refine ⟨th, hth, ?_⟩
    split at h
    · rename_i hpc
      split at h
      · cases h
        exact Or.inl ⟨hpc, rfl, rfl⟩
      · rename_i token ext hte
        cases h
        exact Or.inr (Or.inl ⟨token, ext, hpc, rfl, hte, rfl⟩)
    · rename_i token ext hpc
      cases h
      exact Or.inr (Or.inr (Or.inl ⟨token, ext, hpc, rfl, rfl⟩))
    · rename_i token ext ch hpc
      cases h
      exact Or.inr (Or.inr (Or.inr (Or.inl ⟨token, ext, ch, hpc, rfl, rfl⟩)))
    · rename_i token ext sourceReq order hpc
      split at h
      · cases h
      · rename_i b hb
        cases h
        exact Or.inr (Or.inr (Or.inr (Or.inr (Or.inl
          ⟨token, ext, sourceReq, order, b, hpc, rfl, hb, rfl⟩))))
    · rename_i token ext hpc
      cases h
      exact Or.inr (Or.inr (Or.inr (Or.inr (Or.inr (Or.inl ⟨token, ext, hpc, rfl, rfl⟩)))))
    · rename_i token ext sourceReq hpc
      cases h
      exact Or.inr (Or.inr (Or.inr (Or.inr (Or.inr (Or.inr
        ⟨token, ext, sourceReq, hpc, rfl, rfl⟩)))))
    · cases h

theorem sourceHandler_inv {tbe : Str → Str} {s s1 : State} {j : Nat} {a : SourceStep}
    (h : sourceHandler tbe s j a = some s1) :
    ∃ th, s.sources[j]? = some th ∧
      ((th.pc = SourcePC.start ∧ a = SourceStep.lookup ∧
          s1 = s.setSource j { th with pc := SourcePC.returned SourceEnd.panicked }) ∨
       (∃ token ext sinkChan, th.pc = SourcePC.start ∧ a = SourceStep.lookup ∧
          getTokenExt th.req.Path = some (token, ext) ∧
          s.sourceSinkMap.get token = some sinkChan ∧
          s1 = State.setSource { s with nextChan := s.nextChan + 1 } j
            { th with rw := th.rw.addHeader "Content-Type".toList (typeForExt tbe ext)
                      pc := SourcePC.sending token ext sinkChan ⟨j, th.req, s.nextChan⟩ }) ∨
       (∃ token ext, th.pc = SourcePC.start ∧ a = SourceStep.lookup ∧
          getTokenExt th.req.Path = some (token, ext) ∧
          s.sourceSinkMap.get token = none ∧
          s1 = s.setSource j
            { th with rw := httpNotFound th.rw, pc := SourcePC.returned SourceEnd.notFound }) ∨
       (∃ token ext doneChan, th.pc = SourcePC.awaiting token ext doneChan ∧
          a = SourceStep.timeout ∧
          s1 = s.setSource j { th with pc := SourcePC.returned SourceEnd.timedOut })) := by
  unfold sourceHandler at h
  split at h
  · cases h
  · rename_i th hth
    refine ⟨th, hth, ?_⟩
    split at h
    · rename_i hpc
      split at h
      · cases h
        exact Or.inl ⟨hpc, rfl, rfl⟩
      · rename_i token ext hte
        split at h
        · rename_i sinkChan hget
          cases h
          exact Or.inr (Or.inl ⟨token, ext, sinkChan, hpc, rfl, hte, hget, rfl⟩)
        · rename_i hget
          cases h
          exact Or.inr (Or.inr (Or.inl ⟨token, ext, hpc, rfl, hte, hget, rfl⟩))
    · rename_i token ext doneChan hpc
      cases h
      exact Or.inr (Or.inr (Or.inr ⟨token, ext, doneChan, hpc, rfl, rfl⟩))
    · cases h

/-! ## Invariants are kept by every step -/

theorem getElem?_append_single {α : Type} {l : List α} {a x : α} {k : Nat}
    (h : (l ++ [a])[k]? = some x) : l[k]? = some x ∨ x = a := by
  rcases Nat.lt_or_ge k l.length with hlt | hge
  · rw [List.getElem?_append_left hlt] at h
    exact Or.inl h
  · rw [List.getElem?_append_right hge] at h
    cases hk : k - l.length with
    | zero => rw [hk] at h; simp at h; exact Or.inr h.symm
    | succ n => rw [hk] at h; simp at h

theorem doneInv_setSink {s0 s : State} {i : Nat} {th th1 : SinkThread}
    (hinv : DoneInv s) (hs : s0.sinks = s.sinks) (hth : s.sinks[i]? = some th)
    (hpc : th.pc ≠ SinkPC.returned true) (hpc1 : th1.pc ≠ SinkPC.returned true)
    (hd : th1.doneSent = th.doneSent) : DoneInv (s0.setSink i th1) := by
  intro k x hx
  simp only [State.setSink, hs] at hx
  rcases getElem?_set_cases hx with ⟨_, rfl⟩ | ⟨_, hold⟩
  · exact ⟨fun h => absurd h hpc1, fun _ => hd ▸ (hinv i th hth).2 hpc⟩
  · exact hinv k x hold

theorem doneInv_step {tbe : Str → Str} {s s1 : State} {l : Label}
    (hinv : DoneInv s) (h : step tbe s l = some s1) : DoneInv s1 := by
  cases l with
  | sinkArrives req =>
    simp only [step, Option.some.injEq] at h
    subst h
    intro k x hx
    rcases getElem?_append_single hx with hold | rfl
    · exact hinv k x hold
    · exact ⟨fun h => (by cases h), fun _ => rfl⟩
  | sourceArrives req =>
    simp only [step, Option.some.injEq] at h
    subst h
    exact hinv
  | sink i a =>
    obtain ⟨th, hth, hc⟩ := sinkHandler_inv h
    rcases hc with ⟨hpc, _, rfl⟩ | ⟨_, _, hpc, _, _, rfl⟩ | ⟨_, _, hpc, _, rfl⟩ |
      ⟨_, _, _, hpc, _, rfl⟩ | ⟨_, _, _, _, b, hpc, _, _, rfl⟩ | ⟨_, _, hpc, _, rfl⟩ |
      ⟨_, _, _, hpc, _, rfl⟩
    · exact doneInv_setSink hinv rfl hth (by simp [hpc]) (by simp) rfl
    · exact doneInv_setSink hinv rfl hth (by simp [hpc]) (by simp) rfl
    · exact doneInv_setSink hinv rfl hth (by simp [hpc]) (by simp) rfl
    · exact doneInv_setSink hinv rfl hth (by simp [hpc]) (by simp) rfl
    · refine doneInv_setSink hinv (writeSource_sinks _ _ _) hth (by simp [hpc]) ?_ rfl
      cases b.panicked <;> simp
    · exact doneInv_setSink hinv rfl hth (by simp [hpc]) (by simp) rfl
    · exact doneInv_setSink hinv rfl hth (by simp [hpc]) (by simp) rfl
  | source j a =>
    obtain ⟨th, hth, hc⟩ := sourceHandler_inv h
    rcases hc with ⟨_, _, rfl⟩ | ⟨_, _, _, _, _, _, _, rfl⟩ | ⟨_, _, _, _, _, _, rfl⟩ |
      ⟨_, _, _, _, _, rfl⟩ <;> exact hinv
  | handoff j i =>
    obtain ⟨src, snk, _, _, _, _, _, _, _, hsnk, _, hpc, rfl⟩ := handoff_inv h
    exact doneInv_setSink hinv rfl hsnk (by simp [hpc]) (by simp) rfl
  | signal i j =>
    obtain ⟨snk, src, _, _, _, hsnk, _, hpc, _, rfl⟩ := signal_inv h
    intro k x hx
    simp only [State.setSink, State.setSource] at hx
    rcases getElem?_set_cases hx with ⟨_, rfl⟩ | ⟨_, hold⟩
    · have := (hinv i snk hsnk).2 (by simp [hpc])
      exact ⟨fun _ => by simp [this], fun h => absurd rfl h⟩
    · exact hinv k x hold

theorem doneInv_reachable {tbe : Str → Str} {s : State} (h : Reachable tbe s) : DoneInv s := by
  induction h with
  | init => intro i th hth; simp [State.init] at hth
  | step l _ hstep ih => exact doneInv_step ih hstep

/-! ## The completion signal -/

theorem writeSource_sources {s : State} {j k : Nat} {bytes : Str} {x : SourceThread}
    (h : (s.writeSource j bytes).sources[k]? = some x) :
    ∃ y, s.sources[k]? = some y ∧ x.pc = y.pc := by
  unfold State.writeSource at h
  split at h
  · rename_i src hsrc
    simp only [State.setSource] at h
    rcases getElem?_set_cases h with ⟨rfl, rfl⟩ | ⟨_, hold⟩
    · exact ⟨src, hsrc, rfl⟩
    · exact ⟨x, hold, rfl⟩
  · exact ⟨x, h, rfl⟩

theorem writeSource_nextChan (s : State) (j : Nat) (bytes : Str) :
    (s.writeSource j bytes).nextChan = s.nextChan := by
  unfold State.writeSource
  split <;> rfl

theorem getElem?_set_other {α : Type} {l : List α} {i k : Nat} {a x : α}
    (h : l[i]? = some x) (hk : k ≠ i) : (l.set k a)[i]? = some x := by
  rw [List.getElem?_set_ne hk]; exact h

theorem getElem?_append_old {α : Type} {l : List α} {i : Nat} {a x : α}
    (h : l[i]? = some x) : (l ++ [a])[i]? = some x := by
  have hi : i < l.length := by
    rcases Nat.lt_or_ge i l.length with hlt | hge
    · exact hlt
    · rw [List.getElem?_eq_none hge] at h; cases h
  rw [List.getElem?_append_left hi]; exact h

theorem sourceOff_set {done : Chan} {l : List SourceThread} {k : Nat} {new : SourceThread}
    (hall : ∀ (j : Nat) (src : SourceThread), l[j]? = some src → SourceOff done src)
    (hnew : SourceOff done new) :
    ∀ (j : Nat) (src : SourceThread), (l.set k new)[j]? = some src → SourceOff done src := by
  intro j src h
  rcases getElem?_set_cases h with ⟨_, rfl⟩ | ⟨_, hold⟩
  · exact hnew
  · exact hall j src hold

theorem doneBlocked_step {tbe : Str → Str} {s s1 : State} {l : Label} {i : Nat}
    {p : SourceRequest} (hinv : DoneBlocked i p s) (h : step tbe s l = some s1) :
    DoneBlocked i p s1 := by
  obtain ⟨⟨th, hth, hpc, hds⟩, hlt, hsrc⟩ := hinv
  cases l with
  | sinkArrives req =>
    simp only [step, Option.some.injEq] at h
    subst h
    exact ⟨⟨th, getElem?_append_old hth, hpc, hds⟩, hlt, hsrc⟩
  | sourceArrives req =>
    simp only [step, Option.some.injEq] at h
    subst h
    refine ⟨⟨th, hth, hpc, hds⟩, hlt, ?_⟩
    intro j src hj
    rcases getElem?_append_single hj with hold | rfl
    · exact hsrc j src hold
    · exact ⟨fun _ _ hc => (by cases hc), fun _ _ _ _ hc => (by cases hc)⟩
  | sink k a =>
    obtain ⟨thk, hthk, hc⟩ := sinkHandler_inv h
    have hki : k ≠ i := by
      intro hki
      subst hki
      rw [hth] at hthk
      cases hthk
      rcases hc with ⟨h1, _⟩ | ⟨_, _, h1, _⟩ | ⟨_, _, h1, _⟩ | ⟨_, _, _, h1, _⟩ |
        ⟨_, _, _, _, _, h1, _⟩ | ⟨_, _, h1, _⟩ | ⟨_, _, _, h1, _⟩ <;>
      · rw [hpc] at h1; cases h1
    rcases hc with ⟨_, _, rfl⟩ | ⟨_, _, _, _, _, rfl⟩ | ⟨_, _, _, _, rfl⟩ |
      ⟨_, _, _, _, _, rfl⟩ | ⟨_, _, _, _, b, _, _, _, rfl⟩ | ⟨_, _, _, _, rfl⟩ |
      ⟨_, _, _, _, _, rfl⟩
    · exact ⟨⟨th, getElem?_set_other hth hki, hpc, hds⟩, hlt, hsrc⟩
    · exact ⟨⟨th, getElem?_set_other hth hki, hpc, hds⟩, Nat.lt_succ_of_lt hlt, hsrc⟩
    · exact ⟨⟨th, getElem?_set_other hth hki, hpc, hds⟩, hlt, hsrc⟩
    · exact ⟨⟨th, getElem?_set_other hth hki, hpc, hds⟩, hlt, hsrc⟩
    · refine ⟨⟨th, ?_, hpc, hds⟩, ?_, ?_⟩
      · simp only [State.setSink]
        exact getElem?_set_other (by rw [writeSource_sinks]; exact hth) hki
      · simp only [State.setSink, writeSource_nextChan]; exact hlt
      · intro j src hj
        simp only [State.setSink] at hj
        obtain ⟨y, hy, hpcy⟩ := writeSource_sources hj
        have := hsrc j y hy
        exact ⟨fun t e hc => this.1 t e (hpcy ▸ hc), fun t e c r hc => this.2 t e c r (hpcy ▸ hc)⟩
    · exact ⟨⟨th, getElem?_set_other hth hki, hpc, hds⟩, hlt, hsrc⟩
    · exact ⟨⟨th, getElem?_set_other hth hki, hpc, hds⟩, hlt, hsrc⟩
  | source j a =>
    obtain ⟨thj, hthj, hc⟩ := sourceHandler_inv h
    rcases hc with ⟨_, _, rfl⟩ | ⟨_, _, _, _, _, _, _, rfl⟩ | ⟨_, _, _, _, _, _, rfl⟩ |
      ⟨_, _, _, _, _, rfl⟩
    · exact ⟨⟨th, hth, hpc, hds⟩, hlt,
        sourceOff_set hsrc ⟨fun _ _ hc => (by cases hc), fun _ _ _ _ hc => (by cases hc)⟩⟩
    · refine ⟨⟨th, hth, hpc, hds⟩, Nat.lt_succ_of_lt hlt, sourceOff_set hsrc
        ⟨fun _ _ hc => (by cases hc), fun _ _ _ _ hc => ?_⟩⟩
      cases hc
      exact Nat.ne_of_gt hlt
    · exact ⟨⟨th, hth, hpc, hds⟩, hlt,
        sourceOff_set hsrc ⟨fun _ _ hc => (by cases hc), fun _ _ _ _ hc => (by cases hc)⟩⟩
    · exact ⟨⟨th, hth, hpc, hds⟩, hlt,
        sourceOff_set hsrc ⟨fun _ _ hc => (by cases hc), fun _ _ _ _ hc => (by cases hc)⟩⟩
  | handoff j k =>
    obtain ⟨src, snk, token, ext, ch, srcReq, tk, ex, hs, hk, hp1, hp2, rfl⟩ := handoff_inv h
    have hki : k ≠ i := by
      intro hki
      subst hki
      rw [hth] at hk
      cases hk
      rw [hpc] at hp2
      cases hp2
    refine ⟨⟨th, getElem?_set_other hth hki, hpc, hds⟩, hlt, sourceOff_set hsrc
      ⟨fun _ _ hc => ?_, fun _ _ _ _ hc => (by cases hc)⟩⟩
    simp only [SourcePC.awaiting.injEq] at hc
    exact (hsrc j src hs).2 _ _ _ _ hp1 hc.2.2
  | signal k j =>
    obtain ⟨snk, src, r, token, ext, hk, hs, hp1, hp2, rfl⟩ := signal_inv h
    have hki : k ≠ i := by
      intro hki
      subst hki
      rw [hth] at hk
      cases hk
      rw [hpc] at hp1
      cases hp1
      exact (hsrc j src hs).1 _ _ hp2
    exact ⟨⟨th, getElem?_set_other hth hki, hpc, hds⟩, hlt,
      sourceOff_set hsrc ⟨fun _ _ hc => (by cases hc), fun _ _ _ _ hc => (by cases hc)⟩⟩

theorem doneBlocked_run {tbe : Str → Str} {i : Nat} {p : SourceRequest} (ls : List Label) :
    ∀ {s s1 : State}, DoneBlocked i p s → run tbe s ls = some s1 → DoneBlocked i p s1 := by
  induction ls with
  | nil =>
    intro s s1 hinv h
    simp only [run, Option.some.injEq] at h
    exact h ▸ hinv
  | cons l ls ih =>
    intro s s1 hinv h
    simp only [run] at h
    cases hstep : step tbe s l with
    | none => simp only [hstep] at h; cases h
    | some s2 =>
      simp only [hstep] at h
      exact ih (doneBlocked_step hinv hstep) h

theorem blockedState_doneBlocked :
    DoneBlocked 0 ⟨0, Request.plain "/in/t".toList "GET".toList [], 1⟩ blockedState := by
  refine ⟨⟨_, rfl, rfl, rfl⟩, by decide, ?_⟩
  intro j src hj
  match j, hj with
  | 0, hj =>
    simp only [blockedState, List.getElem?_cons_zero, Option.some.injEq] at hj
    subst hj
    exact ⟨fun _ _ hc => (by cases hc), fun _ _ _ _ hc => (by cases hc)⟩
  | j + 1, hj => simp [blockedState] at hj

/-- C7, the code at the failing input: a sink registers `t`, a source hands
its parcel over, and the source's wait for `done` times out while the sink
is still bridging.  The parcel was received, yet the sink is left in its
deferred send `sourceReq.done <- true` and, in every continuation of the
run, stays there having sent no value on `done`. -/
theorem done_send_blocks_after_source_timeout :
    run (fun _ => []) State.init
      [Label.sinkArrives (Request.plain "/out/t".toList "POST".toList "a long body".toList),
       Label.sink 0 SinkStep.register, Label.sink 0 SinkStep.select,
       Label.sourceArrives (Request.plain "/in/t".toList "GET".toList []),
       Label.source 0 SourceStep.lookup, Label.handoff 0 0,
       Label.source 0 SourceStep.timeout,
       Label.sink 0 (SinkStep.bridge []), Label.sink 0 SinkStep.unregister] =
      some blockedState ∧
    ∀ (ls : List Label) (s1 : State), run (fun _ => []) blockedState ls = some s1 →
      (s1.sinks[0]?).map (fun t => (t.pc, t.doneSent)) =
        some (SinkPC.signalling ⟨0, Request.plain "/in/t".toList "GET".toList [], 1⟩, 0) := by
  constructor
  · decide
  · intro ls s1 h
    obtain ⟨⟨th, hth, hpc, hds⟩, _, _⟩ := doneBlocked_run ls blockedState_doneBlocked h
    simp only [hth, Option.map_some', hpc, hds]

/-! ## Channels and tokens -/

theorem GoMap.get_delete_some {α : Type} {m : GoMap α} {k T : Str} {c : α}
    (h : (m.delete k).get T = some c) : m.get T = some c := by
  by_cases hT : T = k
  · subst hT
    rw [GoMap.get_delete_self] at h
    cases h
  · rw [GoMap.get_delete_ne _ _ _ hT] at h
    exact h

theorem chanInv_mono {s s1 : State} (hinv : ChanInv s)
    (hreg : ∀ (T : Str) (c : Chan), s1.sourceSinkMap.get T = some c →
      s.sourceSinkMap.get T = some c)
    (hn : s.nextChan ≤ s1.nextChan)
    (hw : ∀ (k : Nat) (th : SinkThread) (tk ex : Str) (c : Chan), s1.sinks[k]? = some th →
      th.pc = SinkPC.waiting tk ex (some c) →
      ∃ (k0 : Nat) (th0 : SinkThread), s.sinks[k0]? = some th0 ∧
        th0.pc = SinkPC.waiting tk ex (some c)) :
    ChanInv s1 := by
  obtain ⟨hA, hB, hC⟩ := hinv
  refine ⟨?_, ?_, ?_⟩
  · intro T c h
    exact Nat.lt_of_lt_of_le (hA T c (hreg T c h)) hn
  · intro T1 T2 c h1 h2
    exact hB T1 T2 c (hreg T1 c h1) (hreg T2 c h2)
  · intro k th tk ex c hk hpc
    obtain ⟨k0, th0, hk0, hpc0⟩ := hw k th tk ex c hk hpc
    obtain ⟨h1, h2⟩ := hC k0 th0 tk ex c hk0 hpc0
    exact ⟨Nat.lt_of_lt_of_le h1 hn, fun T hT => h2 T (hreg T c hT)⟩

theorem waiting_setSink {s0 s : State} {i : Nat} {th1 : SinkThread}
    (hs : s0.sinks = s.sinks)
    (hnw : ∀ (tk ex : Str) (c : Chan), th1.pc ≠ SinkPC.waiting tk ex (some c)) :
    ∀ (k : Nat) (th : SinkThread) (tk ex : Str) (c : Chan),
      (s0.setSink i th1).sinks[k]? = some th → th.pc = SinkPC.waiting tk ex (some c) →
      ∃ (k0 : Nat) (th0 : SinkThread), s.sinks[k0]? = some th0 ∧
        th0.pc = SinkPC.waiting tk ex (some c) := by
  intro k th tk ex c hk hpc
  simp only [State.setSink, hs] at hk
  rcases getElem?_set_cases hk with ⟨_, rfl⟩ | ⟨_, hold⟩
  · exact absurd hpc (hnw tk ex c)
  · exact ⟨k, th, hold, hpc⟩

theorem waiting_same {s : State} :
    ∀ (k : Nat) (th : SinkThread) (tk ex : Str) (c : Chan),
      s.sinks[k]? = some th → th.pc = SinkPC.waiting tk ex (some c) →
      ∃ (k0 : Nat) (th0 : SinkThread), s.sinks[k0]? = some th0 ∧
        th0.pc = SinkPC.waiting tk ex (some c) :=
  fun k th _ _ _ hk hpc => ⟨k, th, hk, hpc⟩

theorem chanInv_step {tbe : Str → Str} {s s1 : State} {l : Label}
    (hinv : ChanInv s) (h : step tbe s l = some s1) : ChanInv s1 := by
  cases l with
  | sinkArrives req =>
    simp only [step, Option.some.injEq] at h
    subst h
    refine chanInv_mono hinv (fun _ _ h => h) (Nat.le_refl _) ?_
    intro k th tk ex c hk hpc
    rcases getElem?_append_single hk with hold | rfl
    · exact ⟨k, th, hold, hpc⟩
    · cases hpc
  | sourceArrives req =>
    simp only [step, Option.some.injEq] at h
    subst h
    exact chanInv_mono hinv (fun _ _ h => h) (Nat.le_refl _) waiting_same
  | sink i a =>
    obtain ⟨th, hth, hc⟩ := sinkHandler_inv h
    rcases hc with ⟨_, _, rfl⟩ | ⟨token, ext, _, _, _, rfl⟩ | ⟨token, ext, _, _, rfl⟩ |
      ⟨_, _, _, _, _, rfl⟩ | ⟨_, _, _, _, b, _, _, _, rfl⟩ | ⟨_, _, _, _, rfl⟩ |
      ⟨_, _, _, _, _, rfl⟩
    · exact chanInv_mono hinv (fun _ _ h => h) (Nat.le_refl _)
        (waiting_setSink rfl (fun _ _ _ hc => by cases hc))
    · obtain ⟨hA, hB, hC⟩ := hinv
      have hget : ∀ (T : Str) (c : Chan),
          (s.sourceSinkMap.set token s.nextChan).get T = some c →
          (T = token ∧ c = s.nextChan) ∨ (T ≠ token ∧ s.sourceSinkMap.get T = some c) := by
        intro T c hT
        by_cases hTt : T = token
        · subst hTt
          rw [GoMap.get_set_self] at hT
          cases hT
          exact Or.inl ⟨rfl, rfl⟩
        · rw [GoMap.get_set_ne _ _ _ _ hTt] at hT
          exact Or.inr ⟨hTt, hT⟩
      refine ⟨?_, ?_, ?_⟩
      · intro T c hT
        rcases hget T c hT with ⟨_, rfl⟩ | ⟨_, hold⟩
        · exact Nat.lt_succ_self _
        · exact Nat.lt_succ_of_lt (hA T c hold)
      · intro T1 T2 c h1 h2
        rcases hget T1 c h1 with ⟨rfl, rfl⟩ | ⟨_, hold1⟩
        · rcases hget T2 _ h2 with ⟨rfl, _⟩ | ⟨_, hold2⟩
          · rfl
          · exact absurd (hA T2 _ hold2) (Nat.lt_irrefl _)
        · rcases hget T2 c h2 with ⟨rfl, rfl⟩ | ⟨_, hold2⟩
          · exact absurd (hA T1 _ hold1) (Nat.lt_irrefl _)
          · exact hB T1 T2 c hold1 hold2
      · intro k x tk ex c hk hpc
        obtain ⟨k0, th0, hk0, hpc0⟩ :=
          waiting_setSink (s := s) rfl (fun _ _ _ hc => by cases hc) k x tk ex c hk hpc
        obtain ⟨h1, h2⟩ := hC k0 th0 tk ex c hk0 hpc0
        refine ⟨Nat.lt_succ_of_lt h1, ?_⟩
        intro T hT
        rcases hget T c hT with ⟨_, rfl⟩ | ⟨_, hold⟩
        · exact absurd h1 (Nat.lt_irrefl _)
        · exact h2 T hold
    · obtain ⟨hA, hB, hC⟩ := hinv
      refine ⟨hA, hB, ?_⟩
      intro k x tk ex c hk hpc
      simp only [State.setSink] at hk
      rcases getElem?_set_cases hk with ⟨_, rfl⟩ | ⟨_, hold⟩
      · simp only [SinkPC.waiting.injEq] at hpc
        obtain ⟨rfl, _, hg⟩ := hpc
        exact ⟨hA _ _ hg, fun T hT => hB T _ c hT hg⟩
      · exact hC k x tk ex c hold hpc
    · exact chanInv_mono hinv (fun _ _ h => h) (Nat.le_refl _)
        (waiting_setSink rfl (fun _ _ _ hc => by cases hc))
    · refine chanInv_mono hinv ?_ ?_
        (waiting_setSink (writeSource_sinks _ _ _) (fun _ _ _ hc => ?_))
      · intro T c hT
        simpa only [State.setSink, writeSource_sourceSinkMap] using hT
      · simp only [State.setSink, writeSource_nextChan]
        exact Nat.le_refl _
      · cases hb : b.panicked <;> simp [hb] at hc
    · exact chanInv_mono hinv (fun _ _ h => GoMap.get_delete_some h) (Nat.le_refl _)
        (waiting_setSink rfl (fun _ _ _ hc => by cases hc))
    · exact chanInv_mono hinv (fun _ _ h => GoMap.get_delete_some h) (Nat.le_refl _)
        (waiting_setSink rfl (fun _ _ _ hc => by cases hc))
  | source j a =>
    obtain ⟨th, hth, hc⟩ := sourceHandler_inv h
    rcases hc with ⟨_, _, rfl⟩ | ⟨_, _, _, _, _, _, _, rfl⟩ | ⟨_, _, _, _, _, _, rfl⟩ |
      ⟨_, _, _, _, _, rfl⟩
    · exact chanInv_mono hinv (fun _ _ h => h) (Nat.le_refl _) waiting_same
    · exact chanInv_mono hinv (fun _ _ h => h) (Nat.le_succ _) waiting_same
    · exact chanInv_mono hinv (fun _ _ h => h) (Nat.le_refl _) waiting_same
    · exact chanInv_mono hinv (fun _ _ h => h) (Nat.le_refl _) waiting_same
  | handoff j i =>
    obtain ⟨src, snk, _, _, _, _, _, _, _, hsnk, _, hpc, rfl⟩ := handoff_inv h
    exact chanInv_mono hinv (fun _ _ h => h) (Nat.le_refl _)
      (waiting_setSink rfl (fun _ _ _ hc => by cases hc))
  | signal i j =>
    obtain ⟨snk, src, _, _, _, hsnk, _, hpc, _, rfl⟩ := signal_inv h
    refine chanInv_mono hinv (fun _ _ h => h) (Nat.le_refl _) ?_
    intro k th tk ex c hk hpc
    simp only [State.setSink, State.setSource] at hk
    rcases getElem?_set_cases hk with ⟨_, rfl⟩ | ⟨_, hold⟩
    · cases hpc
    · exact ⟨k, th, hold, hpc⟩

theorem chanInv_reachable {tbe : Str → Str} {s : State} (h : Reachable tbe s) : ChanInv s := by
  induction h with
  | init =>
    refine ⟨?_, ?_, ?_⟩
    · intro T c h; cases h
    · intro T1 T2 c h; cases h
    · intro i th tk ex c h; simp [State.init] at h
  | step l _ hstep ih => exact chanInv_step ih hstep

/-! ## Token and extension -/

theorem sinkBridge_format (ext : Str) (outBody : Reader) (req : Request) (order : List Str)
    (params : GoMap Str) (hp : firstValues req.Form.entries GoMap.empty = some params) :
    (ext = ".json".toList →
      sinkBridge ext outBody req order =
        some { toSource := outBody.bytes, toSink := jsonBlock params, panicked := false }) ∧
    (ext ≠ ".json".toList → order.Perm params.keys →
      sinkBridge ext outBody req order =
        some { toSource := outBody.bytes
               toSink := plainBlock order params ++ (bodyAfterParseForm req).bytes
               panicked := false }) := by
  constructor
  · intro hext
    simp only [sinkBridge, hp, if_pos hext]
  · intro hext hperm
    simp only [sinkBridge, hp, if_neg hext, if_pos hperm]

/-- C9: for every path whose text still holds a `/` once one trailing `/` is
removed, `getTokenExt` returns (no out-of-range slice); with `seg` the text
after the last `/`, a `seg` without `.` gives `(seg, ".txt")`, otherwise the
token is `seg` up to its last `.` and the extension is `seg` from that `.` on
(so `token ++ ext = seg`, the extension starts with `.` and holds no other
`.`); with the extension returned, `sinkHandler` writes the JSON block
exactly when the extension is `.json` and the plain-text block otherwise.
Every path beginning `/in/` or `/out/` is such a path. -/
theorem getTokenExt_spec (url : Str) :
    ('/' ∈ trimSuffix url ['/'] →
      ∃ pre seg token ext,
        trimSuffix url ['/'] = pre ++ '/' :: seg ∧ '/' ∉ seg ∧
        getTokenExt url = some (token, ext) ∧
        ('.' ∉ seg → token = seg ∧ ext = ".txt".toList) ∧
        ('.' ∈ seg → ∃ e, seg = token ++ ext ∧ ext = '.' :: e ∧ '.' ∉ e) ∧
        ∀ (outBody : Reader) (req : Request) (order : List Str) (params : GoMap Str),
          firstValues req.Form.entries GoMap.empty = some params →
          (ext = ".json".toList →
            sinkBridge ext outBody req order =
              some { toSource := outBody.bytes, toSink := jsonBlock params,
                     panicked := false }) ∧
          (ext ≠ ".json".toList → order.Perm params.keys →
            sinkBridge ext outBody req order =
              some { toSource := outBody.bytes
                     toSink := plainBlock order params ++ (bodyAfterParseForm req).bytes
                     panicked := false })) ∧
    (∀ rest, url = "/in/".toList ++ rest ∨ url = "/out/".toList ++ rest →
      '/' ∈ trimSuffix url ['/']) := by
  constructor
  · intro h
    cases hi : lastIndex (trimSuffix url ['/']) '/' with
    | none => exact absurd h (lastIndex_none.mp hi)
    | some i =>
      obtain ⟨hd, hno, _⟩ := lastIndex_some hi
      have hsplit : trimSuffix url ['/'] =
          (trimSuffix url ['/']).take i ++ '/' :: (trimSuffix url ['/']).drop (i + 1) := by
        conv_lhs => rw [← List.take_append_drop i (trimSuffix url ['/'])]
        rw [hd]
      generalize hseg : (trimSuffix url ['/']).drop (i + 1) = seg at hd hno hsplit
      cases hk : lastIndex seg '.' with
      | none =>
        have hdot := lastIndex_none.mp hk
        refine ⟨_, seg, seg, ".txt".toList, hsplit, hno, ?_, ?_, ?_,
          fun outBody req order params hp => sinkBridge_format _ outBody req order params hp⟩
        · simp only [getTokenExt, hi, hd, trimPrefix_cons, hk]
          rfl
        · intro _; exact ⟨rfl, rfl⟩
        · intro hc; exact absurd hc hdot
      | some k =>
        obtain ⟨hkd, hkno, _⟩ := lastIndex_some hk
        refine ⟨_, seg, seg.take k, '.' :: seg.drop (k + 1), hsplit, hno, ?_, ?_, ?_,
          fun outBody req order params hp => sinkBridge_format _ outBody req order params hp⟩
        · simp only [getTokenExt, hi, hd, trimPrefix_cons, hk, hkd, trim_dot_ext _ hkno]
        · intro hc
          have : '.' ∈ seg := by
            rw [← List.take_append_drop k seg, hkd]; simp
          exact absurd this hc
        · intro _
          refine ⟨seg.drop (k + 1), ?_, rfl, hkno⟩
          rw [← hkd, List.take_append_drop]
  · intro rest hr
    rcases hr with hr | hr <;> subst hr
    · obtain ⟨r, hr⟩ := trimSuffix_keeps_head '/' 'i' (['n', '/'] ++ rest)
      have : ("/in/".toList ++ rest : Str) = '/' :: 'i' :: (['n', '/'] ++ rest) := rfl
      rw [this, hr]; simp
    · obtain ⟨r, hr⟩ := trimSuffix_keeps_head '/' 'o' (['u', 't', '/'] ++ rest)
      have : ("/out/".toList ++ rest : Str) = '/' :: 'o' :: (['u', 't', '/'] ++ rest) := rfl
      rw [this, hr]; simp

/-- Witness for C9 at the path `/out/abc123.json`. -/
theorem getTokenExt_spec_witness :
    '/' ∈ trimSuffix "/out/abc123.json".toList ['/'] ∧
    ∃ token ext, getTokenExt "/out/abc123.json".toList = some (token, ext) ∧
      token = "abc123".toList ∧ ext = ".json".toList :=
  ⟨by decide, by
    obtain ⟨_, _, token, ext, _, _, h, _⟩ :=
      (getTokenExt_spec "/out/abc123.json".toList).1 (by decide)
    refine ⟨token, ext, h, ?_⟩
    have : getTokenExt "/out/abc123.json".toList = some ("abc123".toList, ".json".toList) := by
      decide
    rw [this] at h
    cases h
    exact ⟨rfl, rfl⟩⟩

/-! ## Runs and reachable states -/

theorem reachable_run {tbe : Str → Str} (ls : List Label) :
    ∀ {s s1 : State}, Reachable tbe s → run tbe s ls = some s1 → Reachable tbe s1 := by
  induction ls with
  | nil =>
    intro s s1 hr h
    simp only [run, Option.some.injEq] at h
    exact h ▸ hr
  | cons l ls ih =>
    intro s s1 hr h
    simp only [run] at h
    cases hstep : step tbe s l with
    | none => simp only [hstep] at h; cases h
    | some s2 =>
      simp only [hstep] at h
      exact ih (Reachable.step l hr hstep) h

theorem exampleReceived_reachable : Reachable (fun _ => []) exampleReceived :=
  reachable_run
    [Label.sinkArrives (Request.plain "/out/t".toList "GET".toList "from sink".toList),
     Label.sink 0 SinkStep.register, Label.sink 0 SinkStep.select,
     Label.sourceArrives (Request.plain "/in/t".toList "PUT".toList "hello".toList),
     Label.source 0 SourceStep.lookup, Label.handoff 0 0] Reachable.init (by decide)

/-! ## The claims about the rendezvous -/

/-- Witness for C1: in the start-up state with one source run for `/in/t`,
the registry is empty and the run ends with status 404. -/
theorem source_without_sink_notFound_witness :
    ∃ s1, step (fun _ => [])
        ⟨GoMap.empty, 0, [],
          [⟨Request.plain "/in/t".toList "GET".toList [], Response.new, SourcePC.start⟩]⟩
        (Label.source 0 SourceStep.lookup) = some s1 ∧
      s1.sourceSinkMap = GoMap.empty ∧
      (s1.sources[0]?).map (fun t => (t.rw.status, t.pc)) =
        some (some 404, SourcePC.returned SourceEnd.notFound) := by
  obtain ⟨s1, h1, h2, _, _, h5, _⟩ :=
    source_without_sink_notFound (fun _ => [])
      ⟨GoMap.empty, 0, [],
        [⟨Request.plain "/in/t".toList "GET".toList [], Response.new, SourcePC.start⟩]⟩
      0 ⟨Request.plain "/in/t".toList "GET".toList [], Response.new, SourcePC.start⟩
      "t".toList ".txt".toList rfl rfl (by decide) rfl
  refine ⟨s1, h1, h2, ?_⟩
  rw [h5]
  decide

/-- Witness for C2: the sink run of `exampleReceived` bridges with the
empty iteration order, unregisters `t`, and the registry has no entry for
`t`. -/
theorem sink_unregisters_token_witness :
    ∃ s1 s2,
      step (fun _ => []) exampleReceived
        (Label.sink 0 (SinkStep.bridge [])) = some s1 ∧
      step (fun _ => []) s1 (Label.sink 0 SinkStep.unregister) = some s2 ∧
      s2.sourceSinkMap.get "t".toList = none := by
  have h := (sink_unregisters_token (fun _ => []) exampleReceived 0
    exampleSink "t".toList ".txt".toList rfl).2
    ⟨0, Request.plain "/in/t".toList "PUT".toList "hello".toList, 1⟩ rfl (by decide)
  have hb : step (fun _ => []) exampleReceived
      (Label.sink 0 (SinkStep.bridge [])) ≠ none := by decide
  cases hs : step (fun _ => []) exampleReceived
      (Label.sink 0 (SinkStep.bridge [])) with
  | none => exact absurd hs hb
  | some s1 =>
    obtain ⟨s2, h2, h3, _⟩ := h.2 [] s1 hs
    exact ⟨s1, s2, rfl, h2, h3.1⟩

/-- Witness for C4: in `exampleReceived` the source's response, empty
before, holds the sink's request body after the bridging step. -/
theorem source_response_after_bridge_witness :
    ∃ s1, step (fun _ => []) exampleReceived (Label.sink 0 (SinkStep.bridge [])) = some s1 ∧
      (s1.sources[0]?).map (fun t => t.rw.body) = some "from sink".toList := by
  have hb : step (fun _ => []) exampleReceived (Label.sink 0 (SinkStep.bridge [])) ≠ none := by
    decide
  cases hs : step (fun _ => []) exampleReceived (Label.sink 0 (SinkStep.bridge [])) with
  | none => exact absurd hs hb
  | some s1 =>
    exact ⟨s1, rfl, (source_response_after_bridge (fun _ => []) exampleReceived s1 0
      exampleSink "t".toList ".txt".toList
      ⟨0, Request.plain "/in/t".toList "PUT".toList "hello".toList, 1⟩ []
      ⟨Request.plain "/in/t".toList "PUT".toList "hello".toList,
        ⟨none, [("Content-Type".toList, "text/plain".toList)], []⟩,
        SourcePC.awaiting "t".toList ".txt".toList 1⟩
      rfl rfl rfl hs).1⟩

/-- The deferred send on `done` in the runs of `sinkHandler`: a handler
that has returned after a parcel has sent one value, a handler anywhere
else in the code none.  After a parcel the bridging step can always be
taken and leads, whatever the bodies, the form and the error reports are,
to the deferred send (after the `delete` step unless it panicked); the send
is completed exactly with a source run that waits on `done`.  After a
timeout the handler unregisters and returns without a send. -/
theorem done_send_steps (tbe : Str → Str) (s : State) (i : Nat) (th : SinkThread)
    (hr : Reachable tbe s) (hth : s.sinks[i]? = some th) :
    ((th.pc = SinkPC.returned true → th.doneSent = 1) ∧
     (th.pc ≠ SinkPC.returned true → th.doneSent = 0)) ∧
    (∀ token ext sourceReq, th.pc = SinkPC.received token ext sourceReq →
      (∃ order s1, step tbe s (Label.sink i (SinkStep.bridge order)) = some s1) ∧
      ∀ order s1, step tbe s (Label.sink i (SinkStep.bridge order)) = some s1 →
        (s1.sinks[i]?).map (fun t => t.pc) = some (SinkPC.signalling sourceReq) ∨
        ((s1.sinks[i]?).map (fun t => t.pc) = some (SinkPC.bridged token ext sourceReq) ∧
          ∃ s2, step tbe s1 (Label.sink i SinkStep.unregister) = some s2 ∧
            (s2.sinks[i]?).map (fun t => t.pc) = some (SinkPC.signalling sourceReq))) ∧
    (∀ sourceReq, th.pc = SinkPC.signalling sourceReq →
      (∀ a, step tbe s (Label.sink i a) = none) ∧
      ∀ j, (∃ s1, step tbe s (Label.signal i j) = some s1 ∧
              (s1.sinks[i]?).map (fun t => (t.pc, t.doneSent)) =
                some (SinkPC.returned true, 1)) ↔
        ∃ src token ext, s.sources[j]? = some src ∧
          src.pc = SourcePC.awaiting token ext sourceReq.done) ∧
    (∀ token ext, th.pc = SinkPC.timedOut token ext →
      ∃ s1, step tbe s (Label.sink i SinkStep.unregister) = some s1 ∧
        (s1.sinks[i]?).map (fun t => (t.pc, t.doneSent)) =
          some (SinkPC.returned false, 0)) := by
  have hdone := doneInv_reachable hr i th hth
  refine ⟨hdone, ?_, ?_, ?_⟩
  · intro token ext sourceReq hpc
    constructor
    · obtain ⟨order, b, hb⟩ := sinkBridge_enabled ext th.outReq.Body sourceReq.req
      exact ⟨order, _, by simp only [step, sinkHandler, hth, hpc, hb]; rfl⟩
    · intro order s1 hstep
      obtain ⟨b, hb, rfl⟩ := bridge_step_inv hth hpc hstep
      rw [bridge_step_sink hth]
      cases hp : b.panicked with
      | true => left; simp
      | false =>
        right
        refine ⟨by simp, ?_⟩
        have hi : (s.writeSource sourceReq.rw b.toSource).sinks[i]? = some th := by
          rw [writeSource_sinks]; exact hth
        refine ⟨_, by
          simp only [step, sinkHandler, State.setSink, getElem?_set_same _ _ _ _ hi]; rfl, ?_⟩
        simp only [State.setSink, List.set_set, getElem?_set_same _ _ _ _ hi]
        rfl
  · intro sourceReq hpc
    constructor
    · intro a
      cases hs : step tbe s (Label.sink i a) with
      | none => rfl
      | some s1 =>
        obtain ⟨th1, hth1, hc⟩ := sinkHandler_inv hs
        rw [hth] at hth1
        cases hth1
        rcases hc with ⟨h1, _⟩ | ⟨_, _, h1, _⟩ | ⟨_, _, h1, _⟩ | ⟨_, _, _, h1, _⟩ |
          ⟨_, _, _, _, _, h1, _⟩ | ⟨_, _, h1, _⟩ | ⟨_, _, _, h1, _⟩ <;>
        · rw [hpc] at h1; cases h1
    · intro j
      constructor
      · rintro ⟨s1, hs, _⟩
        obtain ⟨snk, src, r, token, ext, hk, hsj, hp1, hp2, _⟩ := signal_inv hs
        rw [hth] at hk
        cases hk
        rw [hpc] at hp1
        cases hp1
        exact ⟨src, token, ext, hsj, hp2⟩
      · rintro ⟨src, token, ext, hsj, hp2⟩
        refine ⟨_, by simp only [step, signal, hth, hsj, hpc, hp2, if_true]; rfl, ?_⟩
        simp only [State.setSink, State.setSource, getElem?_set_same _ _ _ _ hth,
          Option.map_some', hdone.2 (by simp [hpc])]
  · intro token ext hpc
    refine ⟨_, by simp only [step, sinkHandler, hth, hpc]; rfl, ?_⟩
    simp only [State.setSink, getElem?_set_same _ _ _ _ hth, Option.map_some',
      hdone.2 (by simp [hpc])]

theorem aloneInv_of_none {T : Str} {s : State}
    (h : ∀ (k : Nat) (th : SinkThread), s.sinks[k]? = some th → holdsToken T th.pc = false) :
    AloneInv T s := by
  refine ⟨?_, ?_, ?_⟩
  · intro k1 k2 t1 t2 h1 _ hh1 _
    rw [h k1 t1 h1] at hh1
    cases hh1
  · intro k th ex hk hpc
    have := h k th hk
    simp [hpc, holdsToken] at this
  · intro k th ex ch hk hpc
    have := h k th hk
    simp [hpc, holdsToken] at this

theorem aloneInv_update {T : Str} {s s1 : State} {k : Nat} {th th1 : SinkThread}
    (hinv : AloneInv T s) (hth : s.sinks[k]? = some th)
    (hs : s1.sinks = s.sinks.set k th1)
    (hreg : s1.sourceSinkMap.get T = s.sourceSinkMap.get T)
    (hh : holdsToken T th1.pc = true → holdsToken T th.pc = true)
    (hnr : ∀ ex, th1.pc ≠ SinkPC.registered T ex)
    (hw : ∀ ex ch, th1.pc = SinkPC.waiting T ex ch →
      ∃ c, ch = some c ∧ s.sourceSinkMap.get T = some c) :
    AloneInv T s1 := by
  obtain ⟨hU, hR, hW⟩ := hinv
  have hold : ∀ (x : Nat) (t : SinkThread), s1.sinks[x]? = some t →
      holdsToken T t.pc = true →
      ∃ t0, s.sinks[x]? = some t0 ∧ holdsToken T t0.pc = true := by
    intro x t hx hht
    rw [hs] at hx
    rcases getElem?_set_cases hx with ⟨rfl, rfl⟩ | ⟨_, hxo⟩
    · exact ⟨th, hth, hh hht⟩
    · exact ⟨t, hxo, hht⟩
  refine ⟨?_, ?_, ?_⟩
  · intro k1 k2 t1 t2 h1 h2 hh1 hh2
    obtain ⟨a1, ha1, hha1⟩ := hold k1 t1 h1 hh1
    obtain ⟨a2, ha2, hha2⟩ := hold k2 t2 h2 hh2
    exact hU k1 k2 a1 a2 ha1 ha2 hha1 hha2
  · intro x t ex hx hpc
    rw [hs] at hx
    rcases getElem?_set_cases hx with ⟨_, rfl⟩ | ⟨_, hxo⟩
    · exact absurd hpc (hnr ex)
    · rw [hreg]
      exact hR x t ex hxo hpc
  · intro x t ex ch hx hpc
    rw [hs] at hx
    rcases getElem?_set_cases hx with ⟨_, rfl⟩ | ⟨_, hxo⟩
    · rw [hreg]
      exact hw ex ch hpc
    · rw [hreg]
      exact hW x t ex ch hxo hpc

theorem aloneInv_same {T : Str} {s s1 : State} (hinv : AloneInv T s)
    (hs : s1.sinks = s.sinks) (hreg : s1.sourceSinkMap = s.sourceSinkMap) :
    AloneInv T s1 := by
  obtain ⟨hU, hR, hW⟩ := hinv
  refine ⟨?_, ?_, ?_⟩
  · intro k1 k2 t1 t2 h1 h2
    rw [hs] at h1 h2
    exact hU k1 k2 t1 t2 h1 h2
  · intro k th ex hk
    rw [hs] at hk
    rw [hreg]
    exact hR k th ex hk
  · intro k th ex ch hk
    rw [hs] at hk
    rw [hreg]
    exact hW k th ex ch hk

theorem aloneInv_step {tbe : Str → Str} {T : Str} {s s1 : State} {l : Label}
    (hinv : AloneInv T s) (hg : registersAlone T s l = true)
    (h : step tbe s l = some s1) : AloneInv T s1 := by
  cases l with
  | sinkArrives req =>
    simp only [step, Option.some.injEq] at h
    subst h
    obtain ⟨hU, hR, hW⟩ := hinv
    have hold : ∀ (x : Nat) (t : SinkThread),
        (s.sinks ++ [⟨req, Response.new, SinkPC.start, 0⟩])[x]? = some t →
        t.pc ≠ SinkPC.start → s.sinks[x]? = some t := by
      intro x t hx hne
      rcases getElem?_append_single hx with hxo | rfl
      · exact hxo
      · exact absurd rfl hne
    refine ⟨?_, ?_, ?_⟩
    · intro k1 k2 t1 t2 h1 h2 hh1 hh2
      have n1 : t1.pc ≠ SinkPC.start := fun hc => by simp [hc, holdsToken] at hh1
      have n2 : t2.pc ≠ SinkPC.start := fun hc => by simp [hc, holdsToken] at hh2
      exact hU k1 k2 t1 t2 (hold k1 t1 h1 n1) (hold k2 t2 h2 n2) hh1 hh2
    · intro k th ex hk hpc
      exact hR k th ex (hold k th hk (by simp [hpc])) hpc
    · intro k th ex ch hk hpc
      exact hW k th ex ch (hold k th hk (by simp [hpc])) hpc
  | sourceArrives req =>
    simp only [step, Option.some.injEq] at h
    subst h
    exact aloneInv_same hinv rfl rfl
  | sink i a =>
    obtain ⟨th, hth, hc⟩ := sinkHandler_inv h
    rcases hc with ⟨hpc, _, rfl⟩ | ⟨token, ext, hpc, ha, hte, rfl⟩ |
      ⟨token, ext, hpc, _, rfl⟩ | ⟨token, ext, ch, hpc, _, rfl⟩ |
      ⟨token, ext, p, _, b, hpc, _, _, rfl⟩ | ⟨token, ext, hpc, _, rfl⟩ |
      ⟨token, ext, p, hpc, _, rfl⟩
    · exact aloneInv_update hinv hth rfl rfl (fun hc => by simp [holdsToken] at hc)
        (fun _ hc => by cases hc) (fun _ _ hc => by cases hc)
    · by_cases hT : token = T
      · subst hT
        subst ha
        have hnone : ∀ (x : Nat) (t : SinkThread), s.sinks[x]? = some t →
            holdsToken token t.pc = false := by
          simp only [registersAlone, hth, hpc, hte, if_true, List.all_eq_true] at hg
          intro x t hx
          have := hg t (List.getElem?_mem hx)
          simpa using this
        refine ⟨?_, ?_, ?_⟩
        · intro k1 k2 t1 t2 h1 h2 hh1 hh2
          simp only [State.setSink] at h1 h2
          rcases getElem?_set_cases h1 with ⟨rfl, _⟩ | ⟨_, h1o⟩
          · rcases getElem?_set_cases h2 with ⟨rfl, _⟩ | ⟨_, h2o⟩
            · rfl
            · rw [hnone k2 t2 h2o] at hh2; cases hh2
          · rw [hnone k1 t1 h1o] at hh1; cases hh1
        · intro k t ex hk hp
          exact ⟨s.nextChan, GoMap.get_set_self _ _ _⟩
        · intro k t ex ch hk hp
          simp only [State.setSink] at hk
          rcases getElem?_set_cases hk with ⟨_, rfl⟩ | ⟨_, hko⟩
          · cases hp
          · have := hnone k t hko
            simp [hp, holdsToken] at this
      · exact aloneInv_update hinv hth rfl (GoMap.get_set_ne _ _ _ _ (Ne.symm hT))
          (fun hc => by simp [holdsToken, hT] at hc)
          (fun _ hc => by cases hc; exact hT rfl) (fun _ _ hc => by cases hc)
    · refine aloneInv_update hinv hth rfl rfl (fun hc => by simpa [holdsToken, hpc] using hc)
        (fun _ hc => by cases hc) ?_
      intro ex ch hc
      simp only [SinkPC.waiting.injEq] at hc
      obtain ⟨rfl, rfl, rfl⟩ := hc
      obtain ⟨c, hc⟩ := hinv.2.1 i th ext hth hpc
      exact ⟨c, hc, hc⟩
    · exact aloneInv_update hinv hth rfl rfl (fun hc => by simpa [holdsToken, hpc] using hc)
        (fun _ hc => by cases hc) (fun _ _ hc => by cases hc)
    · have hs : ((s.writeSource p.rw b.toSource).setSink i
            { th with
              outRw := (th.outRw.addHeader "Content-Type".toList (typeForExt tbe ext)).write
                b.toSink
              pc := if b.panicked then SinkPC.signalling p
                    else SinkPC.bridged token ext p }).sinks =
          s.sinks.set i
            { th with
              outRw := (th.outRw.addHeader "Content-Type".toList (typeForExt tbe ext)).write
                b.toSink
              pc := if b.panicked then SinkPC.signalling p
                    else SinkPC.bridged token ext p } := by
        simp only [State.setSink, writeSource_sinks]
      refine aloneInv_update hinv hth hs ?_ ?_ ?_ ?_
      · simp only [State.setSink, writeSource_sourceSinkMap]
      · intro hc
        cases hb : b.panicked <;> simp [hb, holdsToken] at hc
        simpa [holdsToken, hpc] using hc
      · intro ex hc
        cases hb : b.panicked <;> simp [hb] at hc
      · intro ex ch hc
        cases hb : b.panicked <;> simp [hb] at hc
    · by_cases hT : token = T
      · subst hT
        apply aloneInv_of_none
        intro x t hx
        simp only [State.setSink] at hx
        rcases getElem?_set_cases hx with ⟨_, rfl⟩ | ⟨hne, hxo⟩
        · rfl
        · cases hht : holdsToken token t.pc with
          | false => rfl
          | true =>
            exact absurd (hinv.1 x i t th hxo hth hht (by simp [holdsToken, hpc])) hne
      · exact aloneInv_update hinv hth rfl (GoMap.get_delete_ne _ _ _ (Ne.symm hT))
          (fun hc => by simp [holdsToken] at hc)
          (fun _ hc => by cases hc) (fun _ _ hc => by cases hc)
    · by_cases hT : token = T
      · subst hT
        apply aloneInv_of_none
        intro x t hx
        simp only [State.setSink] at hx
        rcases getElem?_set_cases hx with ⟨_, rfl⟩ | ⟨hne, hxo⟩
        · rfl
        · cases hht : holdsToken token t.pc with
          | false => rfl
          | true =>
            exact absurd (hinv.1 x i t th hxo hth hht (by simp [holdsToken, hpc])) hne
      · exact aloneInv_update hinv hth rfl (GoMap.get_delete_ne _ _ _ (Ne.symm hT))
          (fun hc => by simp [holdsToken] at hc)
          (fun _ hc => by cases hc) (fun _ _ hc => by cases hc)
  | source j a =>
    obtain ⟨th, hth, hc⟩ := sourceHandler_inv h
    rcases hc with ⟨_, _, rfl⟩ | ⟨_, _, _, _, _, _, _, rfl⟩ | ⟨_, _, _, _, _, _, rfl⟩ |
      ⟨_, _, _, _, _, rfl⟩ <;> exact aloneInv_same hinv rfl rfl
  | handoff j i =>
    obtain ⟨src, snk, _, _, _, _, tk, ex, _, hsnk, _, hpc, rfl⟩ := handoff_inv h
    exact aloneInv_update hinv hsnk rfl rfl (fun hc => by simpa [holdsToken, hpc] using hc)
      (fun _ hc => by cases hc) (fun _ _ hc => by cases hc)
  | signal i j =>
    obtain ⟨snk, src, _, _, _, hsnk, _, hpc, _, rfl⟩ := signal_inv h
    exact aloneInv_update hinv hsnk rfl rfl (fun hc => by simp [holdsToken] at hc)
      (fun _ hc => by cases hc) (fun _ _ hc => by cases hc)

theorem aloneInv_reachable {tbe : Str → Str} {T : Str} {s : State}
    (h : ReachableAlone tbe T s) : AloneInv T s := by
  induction h with
  | init =>
    apply aloneInv_of_none
    intro k th hk
    simp [State.init] at hk
  | step l _ hg hstep ih => exact aloneInv_step ih hg hstep

theorem reachable_of_alone {tbe : Str → Str} {T : Str} {s : State}
    (h : ReachableAlone tbe T s) : Reachable tbe s := by
  induction h with
  | init => exact Reachable.init
  | step l _ _ hstep ih => exact Reachable.step l ih hstep

theorem reachableAlone_run {tbe : Str → Str} {T : Str} (ls : List Label) :
    ∀ {s s1 : State}, ReachableAlone tbe T s → runAlone tbe T s ls = some s1 →
      ReachableAlone tbe T s1 := by
  induction ls with
  | nil =>
    intro s s1 hr h
    simp only [runAlone, Option.some.injEq] at h
    exact h ▸ hr
  | cons l ls ih =>
    intro s s1 hr h
    simp only [runAlone] at h
    split at h
    · rename_i hg
      cases hstep : step tbe s l with
      | none => simp only [hstep] at h; cases h
      | some s2 =>
        simp only [hstep] at h
        exact ih (ReachableAlone.step l hr hg hstep) h
    · cases h

theorem exampleWaiting_alone : ReachableAlone (fun _ => []) "t".toList exampleWaiting :=
  reachableAlone_run exampleWaitingRun ReachableAlone.init (by decide)

/-- C8 (as the code has it): for every token `T` and every reachable
history of sink and source handler steps in which the sink registrations of
`T` do not overlap (a sink registers `T` only when each earlier sink run
for `T` has passed its `delete`; earlier registrations of `T` that are over
are allowed), a source that arrives for `T` while a sink that registered `T`
is still waiting finds a registration for `T`: the sink waits on the channel
that is the registry's entry for `T`, the lookup does not end in
`http.NotFound` but goes on to send the parcel, the parcel can be handed to
that sink, and no other sink run can receive it. -/
theorem source_meets_waiting_sink (tbe : Str → Str) (T : Str) (s : State) (j i : Nat)
    (src : SourceThread) (snk : SinkThread) (ext ex : Str) (ch : Option Chan)
    (hr : ReachableAlone tbe T s)
    (hsrc : s.sources[j]? = some src) (hstart : src.pc = SourcePC.start)
    (hpath : getTokenExt src.req.Path = some (T, ext))
    (hsnk : s.sinks[i]? = some snk) (hwait : snk.pc = SinkPC.waiting T ex ch) :
    ∃ c, ch = some c ∧ s.sourceSinkMap.get T = some c ∧
    ∃ s1 s2, step tbe s (Label.source j SourceStep.lookup) = some s1 ∧
      (s1.sources[j]?).map (fun t => (t.rw.status, t.pc)) =
        some (src.rw.status, SourcePC.sending T ext c ⟨j, src.req, s.nextChan⟩) ∧
      step tbe s1 (Label.handoff j i) = some s2 ∧
      (s2.sinks[i]?).map (fun t => t.pc) =
        some (SinkPC.received T ex ⟨j, src.req, s.nextChan⟩) ∧
      ∀ k s3, step tbe s1 (Label.handoff j k) = some s3 → k = i := by
  obtain ⟨hU, _, hW⟩ := aloneInv_reachable hr
  obtain ⟨_, _, hC⟩ := chanInv_reachable (reachable_of_alone hr)
  obtain ⟨c, rfl, hreg⟩ := hW i snk ex ch hsnk hwait
  refine ⟨c, rfl, hreg, _,
    (State.setSource { s with nextChan := s.nextChan + 1 } j
      { src with rw := src.rw.addHeader "Content-Type".toList (typeForExt tbe ext)
                 pc := SourcePC.awaiting T ext s.nextChan }).setSink i
      { snk with pc := SinkPC.received T ex ⟨j, src.req, s.nextChan⟩ },
    by simp only [step, sourceHandler, hsrc, hstart, hpath, hreg]; rfl, ?_, ?_, ?_, ?_⟩
  · simp only [State.setSource, getElem?_set_same _ _ _ _ hsrc]
    rfl
  · simp only [step, handoff, State.setSource, getElem?_set_same _ _ _ _ hsrc, hsnk, hwait,
      if_true, List.set_set]
  · simp only [State.setSink, State.setSource, getElem?_set_same _ _ _ _ hsnk]
    rfl
  · intro k s3 hs
    obtain ⟨src1, snk1, t1, e1, c1, r, tk1, ex1, h1, h2, h3, h4, _⟩ := handoff_inv hs
    simp only [State.setSource, getElem?_set_same _ _ _ _ hsrc, Option.some.injEq] at h1
    subst h1
    simp only [SourcePC.sending.injEq] at h3
    obtain ⟨_, _, rfl, _⟩ := h3
    have h2s : s.sinks[k]? = some snk1 := h2
    have : tk1 = T := ((hC k snk1 tk1 ex1 c h2s h4).2 T hreg).symm
    subst this
    exact hU k i snk1 snk h2s hsnk (by simp [holdsToken, h4]) (by simp [holdsToken, hwait])

/-- Witness for C8: `exampleWaiting` is reached by a history in which a
first registration of `t` is over before the second one is made; the source
for `t` finds the entry of the second, waiting sink and hands its parcel to
it. -/
theorem source_meets_waiting_sink_witness :
    runAlone (fun _ => []) "t".toList State.init exampleWaitingRun = some exampleWaiting ∧
    exampleWaiting.sourceSinkMap.get "t".toList = some 1 ∧
    ∃ s1 s2, step (fun _ => []) exampleWaiting (Label.source 0 SourceStep.lookup) = some s1 ∧
      step (fun _ => []) s1 (Label.handoff 0 1) = some s2 ∧
      (s2.sinks[1]?).map (fun t => t.pc) =
        some (SinkPC.received "t".toList ".txt".toList
          ⟨0, Request.plain "/in/t".toList "PUT".toList "hello".toList, 2⟩) := by
  obtain ⟨c, hc, hreg, s1, s2, h1, _, h3, h4, _⟩ :=
    source_meets_waiting_sink (fun _ => []) "t".toList exampleWaiting 0 1
      ⟨Request.plain "/in/t".toList "PUT".toList "hello".toList, Response.new, SourcePC.start⟩
      ⟨Request.plain "/out/t".toList "GET".toList [], Response.new,
        SinkPC.waiting "t".toList ".txt".toList (some 1), 0⟩
      ".txt".toList ".txt".toList (some 1)
      exampleWaiting_alone rfl rfl (by decide) rfl rfl
  cases hc
  exact ⟨by decide, hreg, s1, s2, h1, h3, h4⟩

/-- The history of the counterexample below is one with overlapping
registrations of `t`: the second registration is made while the first sink
run has not reached its `delete`. -/
theorem overlapping_registrations_excluded :
    runAlone (fun _ => []) "t".toList State.init
      [Label.sinkArrives (Request.plain "/out/t".toList "GET".toList []),
       Label.sink 0 SinkStep.register, Label.sink 0 SinkStep.select,
       Label.sinkArrives (Request.plain "/out/t".toList "GET".toList []),
       Label.sink 1 SinkStep.register] = none := by
  decide

/-- C8 fails as stated: two sinks register `t` one after the other and both
wait (the registrations overlap); the first one times out and unregisters
`t`.  The second sink is still waiting for its parcel, yet the source that
now arrives for `t` gets `http.NotFound`. -/
theorem waiting_sink_not_found :
    (run (fun _ => []) State.init
      [Label.sinkArrives (Request.plain "/out/t".toList "GET".toList []),
       Label.sink 0 SinkStep.register, Label.sink 0 SinkStep.select,
       Label.sinkArrives (Request.plain "/out/t".toList "GET".toList []),
       Label.sink 1 SinkStep.register, Label.sink 1 SinkStep.select,
       Label.sink 0 SinkStep.timeout, Label.sink 0 SinkStep.unregister,
       Label.sourceArrives (Request.plain "/in/t".toList "GET".toList []),
       Label.source 0 SourceStep.lookup]).map
        (fun s => (s.sinks.map (fun t => t.pc),
                   s.sources.map (fun t => (t.rw.status, t.pc)))) =
      some ([SinkPC.returned false, SinkPC.waiting "t".toList ".txt".toList (some 1)],
            [(some 404, SourcePC.returned SourceEnd.notFound)]) := by
  decide

end Webpipr
